import Mathlib

/-!
Shallow embedding of the drawing-engine core of a terminal pixel-art editor
(cell model, canvas grid, drawing tools, symmetry engine, undo/redo history,
hex-color parsing), together with theorems settling the specification claims.

Conventions of the embedding:
* Rust usize coordinates become Nat; the signed isize arithmetic inside the
  Bresenham routine becomes Int, with the final cast back to usize modelled
  by Int.toNat, exactly mirroring the source casts.
* Rust Vec-based stacks (undo, redo, the flood-fill work stack) become Lean
  lists whose HEAD is the top of the stack: Vec::push is cons, Vec::pop takes
  the head, and Vec::remove(0) (dropping the oldest element) is dropLast.
* The canvas cell array Vec<Vec<Cell>> (indexed cells[y][x]) becomes a total
  function Nat -> Nat -> Cell together with width and height fields; get and
  set carry the same bounds guards as the source.
* Rust strings are modelled at the char level as List Char.
-/

namespace Kakukuma

/-- True-color RGB value (source struct Rgb with u8 channels). -/
structure Rgb where
  r : Nat
  g : Nat
  b : Nat
deriving DecidableEq, Repr

/-- The default foreground color Rgb::WHITE from the source. -/
def Rgb.WHITE : Rgb := ⟨229, 229, 229⟩

/-- A drawable cell: glyph plus optional foreground/background colors. -/
structure Cell where
  ch : Char
  fg : Option Rgb
  bg : Option Rgb
deriving DecidableEq, Repr

/-- Cell::default from the source: space glyph, white fg, transparent bg. -/
def Cell.default : Cell := ⟨' ', some Rgb.WHITE, none⟩

/-- Block element constants (source module blocks). -/
def blocks.FULL : Char := '█'

def blocks.UPPER_HALF : Char := '▀'

def blocks.LOWER_HALF : Char := '▄'

def blocks.LEFT_HALF : Char := '▌'

def blocks.RIGHT_HALF : Char := '▐'

/-- is_vertical_half from the source. -/
def is_vertical_half (ch : Char) : Bool :=
  ch = blocks.UPPER_HALF || ch = blocks.LOWER_HALF

/-- is_horizontal_half from the source. -/
def is_horizontal_half (ch : Char) : Bool :=
  ch = blocks.LEFT_HALF || ch = blocks.RIGHT_HALF

/-- is_half_block from the source. -/
def is_half_block (ch : Char) : Bool :=
  is_vertical_half ch || is_horizontal_half ch

/-- The canvas grid: a width x height array of cells.  The source stores
Vec<Vec<Cell>> indexed cells[y][x]; the embedding stores the same data as a
total function applied as cells y x. -/
structure Canvas where
  width : Nat
  height : Nat
  cells : Nat → Nat → Cell

/-- Canvas::get: bounds-checked read, None out of range. -/
def Canvas.get (c : Canvas) (x y : Nat) : Option Cell :=
  if x < c.width ∧ y < c.height then some (c.cells y x) else none

/-- Canvas::set: bounds-checked write, silent no-op out of range. -/
def Canvas.set (c : Canvas) (x y : Nat) (cell : Cell) : Canvas :=
  if x < c.width ∧ y < c.height then
    { c with cells := fun j i => if j = y ∧ i = x then cell else c.cells j i }
  else c

/-- A canvas of the given size all of whose cells hold the same value
(used to instantiate theorems at concrete canvases). -/
def uniformCanvas (w h : Nat) (cell : Cell) : Canvas :=
  ⟨w, h, fun _ _ => cell⟩

/-- CellMutation from the source: one cell's before/after record. -/
structure CellMutation where
  x : Nat
  y : Nat
  old : Cell
  new : Cell
deriving DecidableEq, Repr

/-- The position a mutation touches. -/
def CellMutation.pos (m : CellMutation) : Nat × Nat := (m.x, m.y)

/-- Action from the source: an ordered list of mutations undone as one unit. -/
structure Action where
  mutations : List CellMutation
deriving DecidableEq, Repr

/-- MAX_HISTORY from the source. -/
def MAX_HISTORY : Nat := 256

/-- History from the source: two bounded stacks plus the pending stroke
buffer.  Stack lists keep the most recent Action at the head. -/
structure History where
  undo_stack : List Action
  redo_stack : List Action
  pending : Option (List CellMutation)
deriving DecidableEq

/-- History::new. -/
def History.new : History := ⟨[], [], none⟩

/-- History::begin_stroke: opens an empty pending buffer, discarding any
prior unflushed buffer. -/
def History.begin_stroke (h : History) : History :=
  { h with pending := some [] }

/-- History::commit: no-op on an empty mutation list; otherwise clears the
redo stack, pushes onto the undo stack and drops the oldest entry when the
capacity MAX_HISTORY is exceeded. -/
def History.commit (h : History) (action : Action) : History :=
  if action.mutations.isEmpty then h
  else
    let pushed := action :: h.undo_stack
    { h with
      redo_stack := []
      undo_stack := if pushed.length > MAX_HISTORY then pushed.dropLast else pushed }

/-- History::push_mutation: appends to the pending buffer while a stroke is
active, otherwise commits immediately as a singleton Action. -/
def History.push_mutation (h : History) (m : CellMutation) : History :=
  match h.pending with
  | some buf => { h with pending := some (buf ++ [m]) }
  | none => h.commit ⟨[m]⟩

/-- History::end_stroke: closes the pending buffer, committing it as one
Action when non-empty. -/
def History.end_stroke (h : History) : History :=
  match h.pending with
  | some buf =>
      let h' := { h with pending := none }
      if buf.isEmpty then h' else h'.commit ⟨buf⟩
  | none => h

/-- Apply a list of mutations to the canvas, writing the selected field of
each mutation in list order (the loop bodies of History::undo / redo). -/
def applyMutations (f : CellMutation → Cell) (ms : List CellMutation) (c : Canvas) : Canvas :=
  ms.foldl (fun acc m => acc.set m.x m.y (f m)) c

/-- History::undo: pop the most recent Action, write each mutation's old
value in reverse order, push the Action onto redo; returns whether an
action existed. -/
def History.undo (h : History) (c : Canvas) : History × Canvas × Bool :=
  match h.undo_stack with
  | [] => (h, c, false)
  | a :: rest =>
      ({ h with undo_stack := rest, redo_stack := a :: h.redo_stack },
       applyMutations (fun m => m.old) a.mutations.reverse c,
       true)

/-- History::redo: pop from redo, write each mutation's new value in forward
order, push back onto undo; returns whether an action existed. -/
def History.redo (h : History) (c : Canvas) : History × Canvas × Bool :=
  match h.redo_stack with
  | [] => (h, c, false)
  | a :: rest =>
      ({ h with redo_stack := rest, undo_stack := a :: h.undo_stack },
       applyMutations (fun m => m.new) a.mutations c,
       true)

/-- History::can_undo. -/
def History.can_undo (h : History) : Bool := !h.undo_stack.isEmpty

/-- History::can_redo. -/
def History.can_redo (h : History) : Bool := !h.redo_stack.isEmpty

/-! ### Basic canvas lemmas -/

theorem Canvas.set_width (c : Canvas) (x y : Nat) (cell : Cell) :
    (c.set x y cell).width = c.width := by
  unfold Canvas.set; split <;> rfl

theorem Canvas.set_height (c : Canvas) (x y : Nat) (cell : Cell) :
    (c.set x y cell).height = c.height := by
  unfold Canvas.set; split <;> rfl

theorem Canvas.get_set_self (c : Canvas) (x y : Nat) (cell : Cell)
    (hx : x < c.width) (hy : y < c.height) :
    (c.set x y cell).get x y = some cell := by
  unfold Canvas.set Canvas.get
  simp [hx, hy]

theorem Canvas.get_set_ne (c : Canvas) (x y u v : Nat) (cell : Cell)
    (hne : (u, v) ≠ (x, y)) :
    (c.set x y cell).get u v = c.get u v := by
  unfold Canvas.set Canvas.get
  split
  · have huv : ¬(v = y ∧ u = x) := by
      intro ⟨h1, h2⟩; exact hne (by simp [h1, h2])
    simp only []
    split <;> simp [huv]
  · rfl

theorem applyMutations_width (f : CellMutation → Cell) (ms : List CellMutation) (c : Canvas) :
    (applyMutations f ms c).width = c.width := by
  induction ms generalizing c with
  | nil => rfl
  | cons m ms ih =>
      simp only [applyMutations, List.foldl_cons] at *
      rw [ih, Canvas.set_width]

theorem applyMutations_height (f : CellMutation → Cell) (ms : List CellMutation) (c : Canvas) :
    (applyMutations f ms c).height = c.height := by
  induction ms generalizing c with
  | nil => rfl
  | cons m ms ih =>
      simp only [applyMutations, List.foldl_cons] at *
      rw [ih, Canvas.set_height]

/-- Applying mutations leaves untouched positions unchanged. -/
theorem applyMutations_get_notMem (f : CellMutation → Cell) (ms : List CellMutation)
    (c : Canvas) (u v : Nat) (hout : (u, v) ∉ ms.map CellMutation.pos) :
    (applyMutations f ms c).get u v = c.get u v := by
  induction ms generalizing c with
  | nil => rfl
  | cons m ms ih =>
      simp only [List.map_cons, List.mem_cons, not_or] at hout
      simp only [applyMutations, List.foldl_cons] at *
      rw [ih _ hout.2, Canvas.get_set_ne]
      exact fun h => hout.1 (by simp [CellMutation.pos, Prod.ext_iff] at h ⊢; omega)

/-- Two canvases of equal dimensions agreeing outside the mutated positions
agree everywhere after the same mutations are applied. -/
theorem applyMutations_get_congr (f : CellMutation → Cell) (ms : List CellMutation)
    (c c' : Canvas) (hw : c.width = c'.width) (hh : c.height = c'.height)
    (hagree : ∀ u v, (u, v) ∉ ms.map CellMutation.pos → c.get u v = c'.get u v) :
    ∀ u v, (applyMutations f ms c).get u v = (applyMutations f ms c').get u v := by
  induction ms generalizing c c' with
  | nil => exact fun u v => hagree u v (by simp)
  | cons m ms ih =>
      intro u v
      simp only [applyMutations, List.foldl_cons] at *
      refine ih (c.set m.x m.y (f m)) (c'.set m.x m.y (f m)) ?_ ?_ ?_ u v
      · rw [Canvas.set_width, Canvas.set_width, hw]
      · rw [Canvas.set_height, Canvas.set_height, hh]
      · intro a b hab
        by_cases hpos : (a, b) = (m.x, m.y)
        · obtain ⟨ha, hb⟩ := Prod.mk.injEq .. ▸ hpos
          subst ha; subst hb
          by_cases hin : m.x < c.width ∧ m.y < c.height
          · rw [Canvas.get_set_self c _ _ _ hin.1 hin.2,
              Canvas.get_set_self c' _ _ _ (hw ▸ hin.1) (hh ▸ hin.2)]
          · have hin' : ¬(m.x < c'.width ∧ m.y < c'.height) := by
              rw [← hw, ← hh]; exact hin
            simp [Canvas.set, Canvas.get, hin, hin']
        · rw [Canvas.get_set_ne c _ _ _ _ _ hpos, Canvas.get_set_ne c' _ _ _ _ _ hpos]
          refine hagree a b ?_
          simp only [List.map_cons, List.mem_cons, not_or]
          refine ⟨?_, hab⟩
          intro h
          exact hpos (by simpa [CellMutation.pos] using h)

/-! ### History operations as a transition system -/

/-- One call into the History interface (undo and redo also touch the canvas). -/
inductive HistOp where
  | beginStroke : HistOp
  | pushMutation : CellMutation → HistOp
  | endStroke : HistOp
  | commitOp : Action → HistOp
  | undoOp : HistOp
  | redoOp : HistOp

/-- Execute one History operation on the (history, canvas) pair. -/
def histStep (s : History × Canvas) (op : HistOp) : History × Canvas :=
  match op with
  | .beginStroke => (s.1.begin_stroke, s.2)
  | .pushMutation m => (s.1.push_mutation m, s.2)
  | .endStroke => (s.1.end_stroke, s.2)
  | .commitOp a => (s.1.commit a, s.2)
  | .undoOp => ((s.1.undo s.2).1, (s.1.undo s.2).2.1)
  | .redoOp => ((s.1.redo s.2).1, (s.1.redo s.2).2.1)

/-- Execute a sequence of History operations in order. -/
def runHist (ops : List HistOp) (s : History × Canvas) : History × Canvas :=
  ops.foldl histStep s

/-- The invariant carried through every History operation: the two stacks
together never hold more than MAX_HISTORY actions. -/
def stacksBound (h : History) : Prop :=
  h.undo_stack.length + h.redo_stack.length ≤ MAX_HISTORY

/-! ### Commit helper lemmas -/

theorem History.commit_of_empty (h : History) (a : Action) (ha : a.mutations = []) :
    h.commit a = h := by
  simp [History.commit, ha]

theorem History.commit_eq (h : History) (a : Action) (ha : a.mutations ≠ []) :
    h.commit a =
      { h with
        redo_stack := []
        undo_stack :=
          if (a :: h.undo_stack).length > MAX_HISTORY then (a :: h.undo_stack).dropLast
          else a :: h.undo_stack } := by
  simp [History.commit, List.isEmpty_iff, ha]

theorem History.commit_redo_stack (h : History) (a : Action) (ha : a.mutations ≠ []) :
    (h.commit a).redo_stack = [] := by
  rw [History.commit_eq h a ha]

theorem History.commit_undo_stack (h : History) (a : Action) (ha : a.mutations ≠ []) :
    (h.commit a).undo_stack =
      if (a :: h.undo_stack).length > MAX_HISTORY then (a :: h.undo_stack).dropLast
      else a :: h.undo_stack := by
  rw [History.commit_eq h a ha]

theorem History.commit_head (h : History) (a : Action) (ha : a.mutations ≠ []) :
    (h.commit a).undo_stack.head? = some a := by
  rw [History.commit_undo_stack h a ha]
  split
  · next hgt =>
      rw [List.dropLast_cons_of_ne_nil]
      · rfl
      · intro hnil
        rw [hnil] at hgt
        simp [MAX_HISTORY] at hgt
  · rfl

theorem History.commit_undo_stack_lt (h : History) (a : Action) (ha : a.mutations ≠ [])
    (hlen : h.undo_stack.length < MAX_HISTORY) :
    (h.commit a).undo_stack = a :: h.undo_stack := by
  rw [History.commit_undo_stack h a ha, if_neg]
  simp only [List.length_cons]
  omega

theorem History.commit_undo_stack_full (h : History) (a : Action) (ha : a.mutations ≠ [])
    (hlen : h.undo_stack.length = MAX_HISTORY) :
    (h.commit a).undo_stack = a :: h.undo_stack.dropLast := by
  rw [History.commit_undo_stack h a ha, if_pos, List.dropLast_cons_of_ne_nil]
  · intro hnil
    rw [hnil] at hlen
    simp [MAX_HISTORY] at hlen
  · simp only [List.length_cons]
    omega

theorem stacksBound_commit (h : History) (a : Action) (hb : stacksBound h) :
    stacksBound (h.commit a) := by
  unfold History.commit
  split
  · exact hb
  · unfold stacksBound at *
    simp only [List.length_nil]
    split
    · rw [List.length_dropLast]
      simp only [List.length_cons] at *
      omega
    · simp only [List.length_cons] at *
      omega

theorem stacksBound_step (s : History × Canvas) (op : HistOp) (hb : stacksBound s.1) :
    stacksBound (histStep s op).1 := by
  cases op with
  | beginStroke => exact hb
  | pushMutation m =>
      simp only [histStep, History.push_mutation]
      cases hp : s.1.pending with
      | some buf => exact hb
      | none => exact stacksBound_commit _ _ hb
  | endStroke =>
      simp only [histStep, History.end_stroke]
      cases hp : s.1.pending with
      | some buf =>
          by_cases hbuf : buf.isEmpty
          · simp only [hbuf, if_true]
            exact hb
          · simp only [hbuf, if_false]
            exact stacksBound_commit _ _ hb
      | none => exact hb
  | commitOp a => exact stacksBound_commit _ _ hb
  | undoOp =>
      simp only [histStep, History.undo]
      cases hu : s.1.undo_stack with
      | nil => simpa using hb
      | cons a rest =>
          unfold stacksBound at *
          rw [hu] at hb
          simp only [List.length_cons] at *
          omega
  | redoOp =>
      simp only [histStep, History.redo]
      cases hr : s.1.redo_stack with
      | nil => simpa using hb
      | cons a rest =>
          unfold stacksBound at *
          rw [hr] at hb
          simp only [List.length_cons] at *
          omega

theorem runHist_stacksBound (ops : List HistOp) (s : History × Canvas)
    (hb : stacksBound s.1) : stacksBound (runHist ops s).1 := by
  induction ops generalizing s with
  | nil => exact hb
  | cons op ops ih =>
      exact ih (histStep s op) (stacksBound_step s op hb)

/-! ### Claims C1, C6, C7, C10 -/

/-- Undoing (writing old values in reverse order) and then redoing (writing
new values in forward order) reproduces any canvas that arose by applying the
new values in forward order, at every cell. -/
theorem applyMutations_roundtrip (ms : List CellMutation) (c0 : Canvas) (x y : Nat) :
    (applyMutations (fun m => m.new) ms
      (applyMutations (fun m => m.old) ms.reverse
        (applyMutations (fun m => m.new) ms c0))).get x y
    = (applyMutations (fun m => m.new) ms c0).get x y := by
  have step1 :=
    applyMutations_get_congr (fun m => m.new) ms
      (applyMutations (fun m => m.old) ms.reverse (applyMutations (fun m => m.new) ms c0))
      (applyMutations (fun m => m.new) ms c0)
      (applyMutations_width _ _ _) (applyMutations_height _ _ _)
      (fun u v huv =>
        applyMutations_get_notMem _ _ _ u v
          (by rwa [List.map_reverse, List.mem_reverse]))
      x y
  have step2 :=
    applyMutations_get_congr (fun m => m.new) ms
      (applyMutations (fun m => m.new) ms c0) c0
      (applyMutations_width _ _ _) (applyMutations_height _ _ _)
      (fun u v huv => applyMutations_get_notMem _ _ _ u v huv)
      x y
  exact step1.trans step2

/-- Claim C1: for every canvas obtained by applying an Action's new values in
forward order, History.undo (old values in reverse order) followed by
History.redo (new values in forward order) returns the canvas to exactly that
prior state, cell for cell. -/
theorem undo_then_redo_restores (h : History) (a : Action) (rest : List Action)
    (c0 : Canvas) (hstack : h.undo_stack = a :: rest) (x y : Nat) :
    ((h.undo (applyMutations (fun m => m.new) a.mutations c0)).1.redo
        (h.undo (applyMutations (fun m => m.new) a.mutations c0)).2.1).2.1.get x y
      = (applyMutations (fun m => m.new) a.mutations c0).get x y := by
  have hundo :
      h.undo (applyMutations (fun m => m.new) a.mutations c0)
        = ({ h with undo_stack := rest, redo_stack := a :: h.redo_stack },
           applyMutations (fun m => m.old) a.mutations.reverse
             (applyMutations (fun m => m.new) a.mutations c0),
           true) := by
    unfold History.undo
    rw [hstack]
  rw [hundo]
  exact applyMutations_roundtrip a.mutations c0 x y

/-- A sample cell used to instantiate witnesses. -/
def redCell : Cell := ⟨blocks.FULL, some ⟨205, 0, 0⟩, none⟩

/-- A sample mutation used to instantiate witnesses. -/
def sampleMutation : CellMutation := ⟨0, 0, Cell.default, redCell⟩

theorem undo_then_redo_restores_witness :
    ((History.mk [Action.mk [sampleMutation]] [] none).undo
        (applyMutations (fun m => m.new) [sampleMutation] (uniformCanvas 8 8 Cell.default))).1.redo
        (((History.mk [Action.mk [sampleMutation]] [] none).undo
          (applyMutations (fun m => m.new) [sampleMutation]
            (uniformCanvas 8 8 Cell.default))).2.1) |>.2.1.get 0 0
      = (applyMutations (fun m => m.new) [sampleMutation] (uniformCanvas 8 8 Cell.default)).get 0 0 :=
  undo_then_redo_restores (History.mk [Action.mk [sampleMutation]] [] none)
    (Action.mk [sampleMutation]) [] (uniformCanvas 8 8 Cell.default) rfl 0 0

/-- Claim C10: with an empty undo stack, History.undo returns false and
changes nothing; symmetrically for History.redo with an empty redo stack. -/
theorem undo_redo_empty_noop (h : History) (c : Canvas) :
    (h.undo_stack = [] → h.undo c = (h, c, false)) ∧
    (h.redo_stack = [] → h.redo c = (h, c, false)) := by
  constructor
  · intro he; unfold History.undo; rw [he]
  · intro he; unfold History.redo; rw [he]

theorem undo_redo_empty_noop_witness :
    History.new.undo (uniformCanvas 8 8 Cell.default)
        = (History.new, uniformCanvas 8 8 Cell.default, false) ∧
      History.new.redo (uniformCanvas 8 8 Cell.default)
        = (History.new, uniformCanvas 8 8 Cell.default, false) :=
  ⟨(undo_redo_empty_noop History.new (uniformCanvas 8 8 Cell.default)).1 rfl,
   (undo_redo_empty_noop History.new (uniformCanvas 8 8 Cell.default)).2 rfl⟩

/-- Claim C6: History.commit is a no-op on an empty Action; otherwise it
clears the redo stack, pushes the Action (evicting the oldest entry when the
capacity of 256 would be exceeded); consequently the undo stack holds at most
256 Actions after any sequence of History operations started from a fresh
History. -/
theorem history_capacity_bound :
    (∀ (h : History) (a : Action), a.mutations = [] → h.commit a = h) ∧
    (∀ (h : History) (a : Action), a.mutations ≠ [] →
      (h.commit a).redo_stack = [] ∧
      (h.commit a).undo_stack.head? = some a ∧
      (h.undo_stack.length < MAX_HISTORY → (h.commit a).undo_stack = a :: h.undo_stack) ∧
      (h.undo_stack.length = MAX_HISTORY →
        (h.commit a).undo_stack = a :: h.undo_stack.dropLast)) ∧
    (∀ (ops : List HistOp) (c : Canvas),
      (runHist ops (History.new, c)).1.undo_stack.length ≤ MAX_HISTORY) := by
  refine ⟨History.commit_of_empty, ?_, ?_⟩
  · intro h a ha
    exact ⟨History.commit_redo_stack h a ha, History.commit_head h a ha,
      History.commit_undo_stack_lt h a ha, History.commit_undo_stack_full h a ha⟩
  · intro ops c
    have := runHist_stacksBound ops (History.new, c) (by simp [stacksBound, History.new])
    unfold stacksBound at this
    omega

theorem history_capacity_bound_witness :
    History.new.commit (Action.mk []) = History.new ∧
    (History.new.commit (Action.mk [sampleMutation])).redo_stack = [] ∧
    (runHist [HistOp.commitOp (Action.mk [sampleMutation])]
        (History.new, uniformCanvas 8 8 Cell.default)).1.undo_stack.length ≤ MAX_HISTORY :=
  ⟨history_capacity_bound.1 History.new (Action.mk []) rfl,
   (history_capacity_bound.2.1 History.new (Action.mk [sampleMutation])
      (List.cons_ne_nil _ _)).1,
   history_capacity_bound.2.2 [HistOp.commitOp (Action.mk [sampleMutation])]
     (uniformCanvas 8 8 Cell.default)⟩

/-- Pushing a list of mutations while a stroke is active appends them to the
pending buffer in order. -/
theorem runHist_pushes (ms : List CellMutation) (rest : List HistOp)
    (h : History) (buf : List CellMutation) (c : Canvas) :
    runHist (ms.map HistOp.pushMutation ++ rest) ({ h with pending := some buf }, c)
      = runHist rest ({ h with pending := some (buf ++ ms) }, c) := by
  induction ms generalizing buf with
  | nil => simp
  | cons m ms ih =>
      simp only [List.map_cons, List.cons_append]
      show runHist (ms.map HistOp.pushMutation ++ rest)
          (histStep ({ h with pending := some buf }, c) (HistOp.pushMutation m))
        = _
      simp only [histStep, History.push_mutation]
      rw [ih (buf ++ [m])]
      simp

/-- Claim C7: mutations pushed between begin_stroke and end_stroke are
committed as one Action holding exactly those mutations in push order;
end_stroke on an empty buffer commits nothing; push_mutation while no stroke
is active commits a singleton Action immediately; begin_stroke discards any
prior unflushed pending buffer. -/
theorem stroke_batching :
    (∀ (h : History) (c : Canvas) (ms : List CellMutation), ms ≠ [] →
      runHist (HistOp.beginStroke :: (ms.map HistOp.pushMutation ++ [HistOp.endStroke])) (h, c)
        = (History.commit { h with pending := none } ⟨ms⟩, c)) ∧
    (∀ (h : History) (c : Canvas) (ms : List CellMutation), ms ≠ [] →
      (runHist (HistOp.beginStroke :: (ms.map HistOp.pushMutation ++ [HistOp.endStroke]))
          (h, c)).1.undo_stack.head? = some ⟨ms⟩) ∧
    (∀ (h : History) (c : Canvas),
      runHist (HistOp.beginStroke :: [HistOp.endStroke]) (h, c)
        = ({ h with pending := none }, c)) ∧
    (∀ (h : History) (m : CellMutation), h.pending = none →
      h.push_mutation m = h.commit ⟨[m]⟩) ∧
    (∀ (h : History), h.begin_stroke = { h with pending := some [] }) := by
  have key : ∀ (h : History) (c : Canvas) (ms : List CellMutation),
      runHist (HistOp.beginStroke :: (ms.map HistOp.pushMutation ++ [HistOp.endStroke])) (h, c)
        = (if ms.isEmpty then { h with pending := none }
           else History.commit { h with pending := none } ⟨ms⟩, c) := by
    intro h c ms
    show runHist (ms.map HistOp.pushMutation ++ [HistOp.endStroke])
        (histStep (h, c) HistOp.beginStroke) = _
    simp only [histStep, History.begin_stroke]
    rw [runHist_pushes ms [HistOp.endStroke] h [] c]
    show (histStep ({ h with pending := some ([] ++ ms) }, c) HistOp.endStroke) = _
    simp only [histStep, History.end_stroke, List.nil_append]
  refine ⟨?_, ?_, ?_, ?_, ?_⟩
  · intro h c ms hne
    rw [key]
    simp [List.isEmpty_iff, hne]
  · intro h c ms hne
    rw [key]
    simp only [List.isEmpty_iff, hne, if_false]
    exact History.commit_head _ _ (by simpa using hne)
  · intro h c
    have := key h c []
    simpa using this
  · intro h m hp
    unfold History.push_mutation
    rw [hp]
  · intro h
    rfl

theorem stroke_batching_witness :
    runHist (HistOp.beginStroke ::
        ([sampleMutation].map HistOp.pushMutation ++ [HistOp.endStroke]))
        (History.new, uniformCanvas 8 8 Cell.default)
      = (History.commit { History.new with pending := none } ⟨[sampleMutation]⟩,
         uniformCanvas 8 8 Cell.default) :=
  stroke_batching.1 History.new (uniformCanvas 8 8 Cell.default) [sampleMutation]
    (List.cons_ne_nil _ _)

/-! ### Symmetry engine -/

/-- SymmetryMode from the source. -/
inductive SymmetryMode where
  | Off : SymmetryMode
  | Horizontal : SymmetryMode
  | Vertical : SymmetryMode
  | Quad : SymmetryMode
deriving DecidableEq, Repr

/-- SymmetryMode::has_horizontal. -/
def SymmetryMode.has_horizontal : SymmetryMode → Bool
  | .Horizontal => true
  | .Quad => true
  | _ => false

/-- SymmetryMode::has_vertical. -/
def SymmetryMode.has_vertical : SymmetryMode → Bool
  | .Vertical => true
  | .Quad => true
  | _ => false

/-- apply_symmetry from the source: for each mutation push the original, then
the horizontal mirror (x mirrored at width-1-x) when active and distinct,
then the vertical mirror, then under Quad the diagonal mirror when both
mirrored coordinates are distinct. -/
def apply_symmetry (mutations : List CellMutation) (mode : SymmetryMode)
    (width height : Nat) : List CellMutation :=
  if mode = SymmetryMode.Off then mutations
  else
    mutations.foldl
      (fun result m =>
        let result := result ++ [m]
        let result :=
          if mode.has_horizontal then
            let mx := width - 1 - m.x
            if mx ≠ m.x then result ++ [{ m with x := mx }] else result
          else result
        let result :=
          if mode.has_vertical then
            let my := height - 1 - m.y
            if my ≠ m.y then result ++ [{ m with y := my }] else result
          else result
        let result :=
          if mode = SymmetryMode.Quad then
            let mx := width - 1 - m.x
            let my := height - 1 - m.y
            if mx ≠ m.x ∧ my ≠ m.y then result ++ [{ m with x := mx, y := my }] else result
          else result
        result)
      []

/-- The per-mutation expansion described by the specification: the original;
a horizontal mirror copy at width-1-x when horizontal is active and the
mirrored x differs; a vertical mirror copy at height-1-y likewise; under Quad
additionally the diagonal copy when both mirrored coordinates differ. -/
def symmetryExpansion (mode : SymmetryMode) (width height : Nat)
    (m : CellMutation) : List CellMutation :=
  [m]
  ++ (if mode.has_horizontal ∧ width - 1 - m.x ≠ m.x
      then [{ m with x := width - 1 - m.x }] else [])
  ++ (if mode.has_vertical ∧ height - 1 - m.y ≠ m.y
      then [{ m with y := height - 1 - m.y }] else [])
  ++ (if mode = SymmetryMode.Quad ∧ width - 1 - m.x ≠ m.x ∧ height - 1 - m.y ≠ m.y
      then [{ m with x := width - 1 - m.x, y := height - 1 - m.y }] else [])

theorem guard_append {α : Type} (r v : List α) (p q : Prop) [Decidable p] [Decidable q] :
    (if p then (if q then r ++ v else r) else r) = r ++ (if p ∧ q then v else []) := by
  by_cases hp : p <;> by_cases hq : q <;> simp [hp, hq]

theorem apply_symmetry_foldl (mode : SymmetryMode) (width height : Nat)
    (mutations : List CellMutation) :
    ∀ acc : List CellMutation,
      mutations.foldl
        (fun result m =>
          let result := result ++ [m]
          let result :=
            if mode.has_horizontal then
              let mx := width - 1 - m.x
              if mx ≠ m.x then result ++ [{ m with x := mx }] else result
            else result
          let result :=
            if mode.has_vertical then
              let my := height - 1 - m.y
              if my ≠ m.y then result ++ [{ m with y := my }] else result
            else result
          let result :=
            if mode = SymmetryMode.Quad then
              let mx := width - 1 - m.x
              let my := height - 1 - m.y
              if mx ≠ m.x ∧ my ≠ m.y then result ++ [{ m with x := mx, y := my }] else result
            else result
          result)
        acc
      = acc ++ mutations.flatMap (symmetryExpansion mode width height) := by
  induction mutations with
  | nil => intro acc; simp
  | cons m ms ih =>
      intro acc
      rw [List.foldl_cons, ih, List.flatMap_cons]
      rw [← List.append_assoc]
      congr 1
      simp only [guard_append]
      simp only [symmetryExpansion, List.append_assoc]

/-- Claim C5: apply_symmetry is exactly the concatenation, over the input
mutations in order, of the spec-described expansion (original, then
horizontal, vertical and diagonal mirrors, each guarded so a mirror landing
on the original coordinate is skipped); the positions expanded from one
input point are pairwise distinct; and a point at (5,10) on a 32x32 grid
under Quad expands to exactly (5,10), (26,10), (5,21), (26,21) in order. -/
theorem apply_symmetry_spec :
    (∀ (mutations : List CellMutation) (mode : SymmetryMode) (width height : Nat),
      apply_symmetry mutations mode width height
        = mutations.flatMap (symmetryExpansion mode width height)) ∧
    (∀ (mode : SymmetryMode) (width height : Nat) (m : CellMutation),
      ((symmetryExpansion mode width height m).map CellMutation.pos).Nodup) ∧
    ((apply_symmetry [⟨5, 10, Cell.default, redCell⟩] SymmetryMode.Quad 32 32).map
        CellMutation.pos = [(5, 10), (26, 10), (5, 21), (26, 21)]) := by
  have expOff : ∀ (width height : Nat) (m : CellMutation),
      symmetryExpansion SymmetryMode.Off width height m = [m] := by
    intro width height m
    simp [symmetryExpansion, SymmetryMode.has_horizontal, SymmetryMode.has_vertical]
  refine ⟨?_, ?_, by rfl⟩
  · intro mutations mode width height
    by_cases hmode : mode = SymmetryMode.Off
    · subst hmode
      simp only [apply_symmetry, if_true]
      rw [List.flatMap_congr ?_ , List.flatMap_singleton' mutations]
      intro m _
      exact expOff width height m
    · unfold apply_symmetry
      rw [if_neg hmode, apply_symmetry_foldl mode width height mutations []]
      rfl
  · intro mode width height m
    by_cases hx : width - 1 - m.x ≠ m.x <;> by_cases hy : height - 1 - m.y ≠ m.y <;>
      rcases mode with _ | _ | _ | _ <;>
        simp [symmetryExpansion, SymmetryMode.has_horizontal, SymmetryMode.has_vertical,
          CellMutation.pos, Prod.ext_iff, hx, hy] <;>
      omega

/-! ### Half-block resolution -/

/-- ResolvedHalfBlock from the source. -/
structure ResolvedHalfBlock where
  ch : Char
  fg : Option Rgb
  bg : Option Rgb
deriving DecidableEq, Repr

/-- resolve_half_block from the source: None for non-half-block glyphs;
otherwise normalize the four orientations to a (primary, secondary) pair
with the canonical and flipped glyphs, then resolve transparency. -/
def resolve_half_block (cell : Cell) : Option ResolvedHalfBlock :=
  if ¬ is_half_block cell.ch then none
  else
    let quad : Option Rgb × Option Rgb × Char × Char :=
      if cell.ch = blocks.UPPER_HALF then
        (cell.fg, cell.bg, blocks.UPPER_HALF, blocks.LOWER_HALF)
      else if cell.ch = blocks.LOWER_HALF then
        (cell.bg, cell.fg, blocks.UPPER_HALF, blocks.LOWER_HALF)
      else if cell.ch = blocks.LEFT_HALF then
        (cell.fg, cell.bg, blocks.LEFT_HALF, blocks.RIGHT_HALF)
      else
        (cell.bg, cell.fg, blocks.LEFT_HALF, blocks.RIGHT_HALF)
    match quad with
    | (none, none, _, _) => some ⟨' ', none, none⟩
    | (some p, none, normal_ch, _) => some ⟨normal_ch, some p, none⟩
    | (none, some s, _, flipped_ch) => some ⟨flipped_ch, some s, none⟩
    | (some p, some s, normal_ch, _) => some ⟨normal_ch, some p, some s⟩

/-- Modelled from the spec: the transparency rule applied after normalizing
to a canonical (primary, secondary) pair.  Both halves opaque give the
canonical glyph with fg primary and bg secondary; only the primary half
opaque keeps the canonical glyph; only the secondary half opaque flips the
glyph to show that half; both halves transparent give the empty cell. -/
def canonResolve (normal_ch flipped_ch : Char) (primary secondary : Option Rgb) :
    ResolvedHalfBlock :=
  match primary, secondary with
  | some p, some s => ⟨normal_ch, some p, some s⟩
  | some p, none => ⟨normal_ch, some p, none⟩
  | none, some s => ⟨flipped_ch, some s, none⟩
  | none, none => ⟨' ', none, none⟩

theorem is_half_block_iff (c : Char) :
    is_half_block c = true ↔
      c = blocks.UPPER_HALF ∨ c = blocks.LOWER_HALF ∨
      c = blocks.LEFT_HALF ∨ c = blocks.RIGHT_HALF := by
  simp [is_half_block, is_vertical_half, is_horizontal_half, Bool.or_eq_true,
    or_assoc]

/-- Claim C8 (amended): resolve_half_block returns nothing for non-half-block
glyphs; on the four half-block glyphs it normalizes the lower/right
orientations by swapping which color is primary and applies the transparency
rule; it is idempotent on every resolution with at least one opaque half
(the both-transparent resolution is the empty cell, which is no longer a
half-block and resolves to nothing); and the two concrete examples hold. -/
theorem resolve_half_block_spec :
    (∀ cell : Cell, ¬ is_half_block cell.ch → resolve_half_block cell = none) ∧
    (∀ fg bg : Option Rgb,
      resolve_half_block ⟨blocks.UPPER_HALF, fg, bg⟩
          = some (canonResolve blocks.UPPER_HALF blocks.LOWER_HALF fg bg) ∧
      resolve_half_block ⟨blocks.LOWER_HALF, fg, bg⟩
          = some (canonResolve blocks.UPPER_HALF blocks.LOWER_HALF bg fg) ∧
      resolve_half_block ⟨blocks.LEFT_HALF, fg, bg⟩
          = some (canonResolve blocks.LEFT_HALF blocks.RIGHT_HALF fg bg) ∧
      resolve_half_block ⟨blocks.RIGHT_HALF, fg, bg⟩
          = some (canonResolve blocks.LEFT_HALF blocks.RIGHT_HALF bg fg)) ∧
    (∀ (cell : Cell) (r : ResolvedHalfBlock),
      resolve_half_block cell = some r → r.fg.isSome →
      resolve_half_block ⟨r.ch, r.fg, r.bg⟩ = some r) ∧
    resolve_half_block ⟨blocks.UPPER_HALF, some ⟨255, 0, 0⟩, none⟩
        = some ⟨blocks.UPPER_HALF, some ⟨255, 0, 0⟩, none⟩ ∧
    resolve_half_block ⟨blocks.UPPER_HALF, none, none⟩ = some ⟨' ', none, none⟩ := by
  refine ⟨?_, ?_, ?_, by rfl, by rfl⟩
  · intro cell hc
    simp [resolve_half_block, hc]
  · intro fg bg
    rcases fg with _ | p <;> rcases bg with _ | s <;>
      exact ⟨rfl, rfl, rfl, rfl⟩
  · intro cell r hres hfg
    obtain ⟨rc, rf, rb⟩ := r
    obtain ⟨x, f, b⟩ := cell
    have hhb : is_half_block x = true := by
      by_contra hc
      rw [Bool.not_eq_true] at hc
      simp [resolve_half_block, hc] at hres
    rw [is_half_block_iff] at hhb
    rcases hhb with h | h | h | h <;> subst h <;>
      rcases f with _ | p <;> rcases b with _ | s <;>
        · injection hres with h2
          injection h2 with e1 e2 e3
          subst e1; subst e2; subst e3
          first
            | rfl
            | simp at hfg

theorem resolve_half_block_spec_witness :
    resolve_half_block ⟨blocks.FULL, some ⟨255, 0, 0⟩, none⟩ = none ∧
    resolve_half_block ⟨blocks.LOWER_HALF, some ⟨255, 0, 0⟩, some ⟨0, 0, 255⟩⟩
        = some (canonResolve blocks.UPPER_HALF blocks.LOWER_HALF
            (some ⟨0, 0, 255⟩) (some ⟨255, 0, 0⟩)) ∧
    resolve_half_block
        ⟨(ResolvedHalfBlock.mk blocks.UPPER_HALF (some ⟨255, 0, 0⟩) none).ch,
         (ResolvedHalfBlock.mk blocks.UPPER_HALF (some ⟨255, 0, 0⟩) none).fg,
         (ResolvedHalfBlock.mk blocks.UPPER_HALF (some ⟨255, 0, 0⟩) none).bg⟩
      = some (ResolvedHalfBlock.mk blocks.UPPER_HALF (some ⟨255, 0, 0⟩) none) :=
  ⟨resolve_half_block_spec.1 ⟨blocks.FULL, some ⟨255, 0, 0⟩, none⟩ (by decide),
   (resolve_half_block_spec.2.1 (some ⟨255, 0, 0⟩) (some ⟨0, 0, 255⟩)).2.1,
   resolve_half_block_spec.2.2.1 ⟨blocks.UPPER_HALF, some ⟨255, 0, 0⟩, none⟩
     (ResolvedHalfBlock.mk blocks.UPPER_HALF (some ⟨255, 0, 0⟩) none) rfl rfl⟩

/-- Counterexample to claim C8 as stated: the both-transparent resolution is
the empty cell, and resolving a cell built from that resolved result yields
nothing rather than the same resolved result. -/
theorem resolve_half_block_not_idempotent :
    resolve_half_block ⟨blocks.UPPER_HALF, none, none⟩ = some ⟨' ', none, none⟩ ∧
    resolve_half_block ⟨' ', none, none⟩ = none :=
  ⟨rfl, rfl⟩

/-! ### Hex color parsing -/

/-- Whether a char is a hexadecimal digit (matching char::to_digit(16)). -/
def is_hex_digit (c : Char) : Bool :=
  ('0' ≤ c && c ≤ '9') || ('a' ≤ c && c ≤ 'f') || ('A' ≤ c && c ≤ 'F')

/-- Numeric value of a hexadecimal digit char. -/
def hex_digit_val (c : Char) : Nat :=
  if '0' ≤ c ∧ c ≤ '9' then c.toNat - '0'.toNat
  else if 'a' ≤ c ∧ c ≤ 'f' then c.toNat - 'a'.toNat + 10
  else c.toNat - 'A'.toNat + 10

/-- Parse a non-empty all-hex digit string into its value. -/
def parseHexDigits (ds : List Char) : Option Nat :=
  if ds.isEmpty then none
  else if ds.all is_hex_digit then
    some (ds.foldl (fun a c => a * 16 + hex_digit_val c) 0)
  else none

/-- The behavior of u8::from_str_radix(s, 16) on char-level strings: an
optional single leading plus sign (minus is not a sign for unsigned types
and fails as a non-digit), then at least one hex digit, with the value
required to fit in a u8. -/
def from_str_radix_16_u8 (s : List Char) : Option Nat :=
  match s with
  | '+' :: ds => (parseHexDigits ds).bind (fun v => if v ≤ 255 then some v else none)
  | ds => (parseHexDigits ds).bind (fun v => if v ≤ 255 then some v else none)

/-- parse_hex_color from the source: strip one optional leading '#', require
remaining length 6, parse the three 2-char groups with from_str_radix. -/
def parse_hex_color (input : List Char) : Option Rgb :=
  let hex := match input with
    | '#' :: rest => rest
    | _ => input
  if hex.length ≠ 6 then none
  else
    (from_str_radix_16_u8 (hex.take 2)).bind fun r =>
    (from_str_radix_16_u8 ((hex.drop 2).take 2)).bind fun g =>
    (from_str_radix_16_u8 ((hex.drop 4).take 2)).bind fun b =>
    some ⟨r, g, b⟩

/-- Claim C9 evaluates to a bug: the input "+1ff00" is six chars but not six
hex digits, yet parse_hex_color accepts it (u8::from_str_radix takes the
leading plus as a sign), while the documented examples behave as specified:
"#GGHHII" fails and "ff8700" parses to (255, 135, 0). -/
theorem parse_hex_color_sign_bug :
    parse_hex_color ['+', '1', 'f', 'f', '0', '0'] = some ⟨1, 255, 0⟩ ∧
    ['+', '1', 'f', 'f', '0', '0'].all is_hex_digit = false ∧
    parse_hex_color ['#', 'G', 'G', 'H', 'H', 'I', 'I'] = none ∧
    parse_hex_color ['f', 'f', '8', '7', '0', '0'] = some ⟨255, 135, 0⟩ ∧
    parse_hex_color ['#', 'f', 'f', '8', '7', '0', '0'] = some ⟨255, 135, 0⟩ := by
  refine ⟨by decide, by decide, by decide, by decide, by decide⟩

/-! ### Flood fill -/

theorem count_false_set_lt : ∀ (l : List Bool) (i : Nat), i < l.length →
    l.getD i false = false → (l.set i true).count false < l.count false := by
  intro l
  induction l with
  | nil => intro i hi _; simp at hi
  | cons b t ih =>
      intro i hi hg
      cases i with
      | zero =>
          simp only [List.getD_cons_zero] at hg
          subst hg
          simp [List.count_cons]
      | succ n =>
          simp only [List.getD_cons_succ] at hg
          simp only [List.length_cons] at hi
          simp only [List.set_cons_succ, List.count_cons]
          have := ih n (by omega) hg
          cases b <;> simp <;> omega

theorem encode_lt {x y w h : Nat} (hx : x < w) (hy : y < h) : y * w + x < w * h := by
  calc y * w + x < y * w + w := by omega
    _ = (y + 1) * w := by ring
    _ ≤ h * w := Nat.mul_le_mul_right w hy
    _ = w * h := Nat.mul_comm h w

/-- The work loop of flood_fill: pop a coordinate; skip it when out of
bounds, already visited, or not matching the seed value; otherwise mark it
visited, record a mutation and push the four neighbors (guarded in bounds).
The stack keeps its top at the head, so the later source pushes sit closer
to the head. -/
def floodLoop (c : Canvas) (target newc : Cell) (stack : List (Nat × Nat))
    (visited : List Bool) (acc : List CellMutation)
    (hv : visited.length = c.width * c.height) : List CellMutation :=
  match stack with
  | [] => acc
  | (x, y) :: rest =>
      if hskip : x ≥ c.width ∨ y ≥ c.height ∨ visited.getD (y * c.width + x) false = true then
        floodLoop c target newc rest visited acc hv
      else
        match c.get x y with
        | none => floodLoop c target newc rest visited acc hv
        | some cell =>
            if cell ≠ target then
              floodLoop c target newc rest visited acc hv
            else
              floodLoop c target newc
                ((if y + 1 < c.height then [(x, y + 1)] else []) ++
                 (if 0 < y then [(x, y - 1)] else []) ++
                 (if x + 1 < c.width then [(x + 1, y)] else []) ++
                 (if 0 < x then [(x - 1, y)] else []) ++ rest)
                (visited.set (y * c.width + x) true)
                (acc ++ [⟨x, y, target, newc⟩])
                (by rw [List.length_set]; exact hv)
termination_by 5 * visited.count false + stack.length
decreasing_by
  · simp only [List.length_cons]; omega
  · simp only [List.length_cons]; omega
  · push_neg at hskip
    obtain ⟨hx, hy, hgd⟩ := hskip
    have hidx : y * c.width + x < visited.length := by
      rw [hv]; exact encode_lt (by omega) (by omega)
    have hc := count_false_set_lt visited (y * c.width + x) hidx
      (by simpa using hgd)
    simp only [List.length_append, List.length_cons]
    split_ifs <;> simp only [List.length_cons, List.length_nil] <;> omega

/-- flood_fill from the source: read the seed cell (None when out of
bounds), short-circuit when it already equals the requested new cell, then
run the iterative loop with a visited set sized width*height. -/
def flood_fill (c : Canvas) (start_x start_y : Nat) (ch : Char)
    (fg bg : Option Rgb) : List CellMutation :=
  match c.get start_x start_y with
  | none => []
  | some target =>
      let newc : Cell := ⟨ch, fg, bg⟩
      if target = newc then []
      else
        floodLoop c target newc [(start_x, start_y)]
          (List.replicate (c.width * c.height) false) []
          (by rw [List.length_replicate])

/-! ### Flood fill coverage proof -/

/-- Visited flag of cell (x, y) in the flat visited array (index y*w+x). -/
def vAt (w : Nat) (visited : List Bool) (x y : Nat) : Bool :=
  visited.getD (y * w + x) false

/-- 4-connected adjacency of grid positions. -/
def Adjacent (p q : Nat × Nat) : Prop :=
  (p.1 = q.1 ∧ (p.2 = q.2 + 1 ∨ q.2 = p.2 + 1)) ∨
  (p.2 = q.2 ∧ (p.1 = q.1 + 1 ∨ q.1 = p.1 + 1))

theorem encode_inj {w x u y v : Nat} (hx : x < w) (hu : u < w) :
    v * w + u = y * w + x ↔ u = x ∧ v = y := by
  have hmod : ∀ t r : Nat, r < w → (t * w + r) % w = r := by
    intro t r hr
    rw [Nat.mul_comm t w, Nat.mul_add_mod, Nat.mod_eq_of_lt hr]
  constructor
  · intro he
    have hux : u = x := by
      have h1 := hmod v u hu
      have h2 := hmod y x hx
      rw [he, h2] at h1
      exact h1.symm
    subst hux
    have hvw : v * w = y * w := by omega
    have hw : 0 < w := by omega
    exact ⟨rfl, Nat.eq_of_mul_eq_mul_right hw hvw⟩
  · rintro ⟨rfl, rfl⟩; rfl

theorem vAt_set_self {w h : Nat} (visited : List Bool) {x y : Nat}
    (hx : x < w) (hy : y < h) (hv : visited.length = w * h) :
    vAt w (visited.set (y * w + x) true) x y = true := by
  have hidx : y * w + x < visited.length := by rw [hv]; exact encode_lt hx hy
  simp [vAt, List.getD_eq_getElem?_getD, List.getElem?_set_self hidx]

theorem vAt_set_ne {w : Nat} (visited : List Bool) {x y u v : Nat}
    (hx : x < w) (hu : u < w) (hne : (u, v) ≠ (x, y)) :
    vAt w (visited.set (y * w + x) true) u v = vAt w visited u v := by
  have hidx : y * w + x ≠ v * w + u := by
    intro he
    obtain ⟨h1, h2⟩ := (encode_inj hx hu).mp he.symm
    exact hne (by rw [h1, h2])
  simp [vAt, List.getD_eq_getElem?_getD, List.getElem?_set_ne hidx]

/-- The loop invariant of floodLoop on a uniform canvas: mutations recorded
so far are exactly the visited cells, with no duplicates, all in bounds;
every in-bounds neighbor of a visited cell is visited or on the stack; and
the seed is visited or on the stack. -/
structure FloodInv (c : Canvas) (sx sy : Nat) (stack : List (Nat × Nat))
    (visited : List Bool) (acc : List CellMutation) : Prop where
  mem_iff : ∀ x y, x < c.width → y < c.height →
    (vAt c.width visited x y = true ↔ (x, y) ∈ acc.map CellMutation.pos)
  nodup : (acc.map CellMutation.pos).Nodup
  bounded : ∀ p ∈ acc.map CellMutation.pos, p.1 < c.width ∧ p.2 < c.height
  closure : ∀ x y, x < c.width → y < c.height → vAt c.width visited x y = true →
    ∀ u v, Adjacent (x, y) (u, v) → u < c.width → v < c.height →
      vAt c.width visited u v = true ∨ (u, v) ∈ stack
  seed_mem : vAt c.width visited sx sy = true ∨ (sx, sy) ∈ stack

theorem span1D (Q : Nat → Prop) (n a : Nat) (ha : a < n) (hQ : Q a)
    (up : ∀ i, i + 1 < n → Q i → Q (i + 1))
    (down : ∀ i, i + 1 < n → Q (i + 1) → Q i) :
    ∀ j, j < n → Q j := by
  have upward : ∀ d, a + d < n → Q (a + d) := by
    intro d
    induction d with
    | zero => intro _; simpa using hQ
    | succ k ih =>
        intro hd
        have := up (a + k) (by omega) (ih (by omega))
        simpa [Nat.add_assoc] using this
  have downward : ∀ d, d ≤ a → Q (a - d) := by
    intro d
    induction d with
    | zero => intro _; simpa using hQ
    | succ k ih =>
        intro hd
        have h1 : (a - (k + 1)) + 1 = a - k := by omega
        exact down (a - (k + 1)) (by omega) (by rw [h1]; exact ih (by omega))
  intro j hj
  rcases Nat.le_total a j with hle | hle
  · have hj' : j = a + (j - a) := by omega
    rw [hj']; exact upward (j - a) (by omega)
  · have hj' : j = a - (a - j) := by omega
    rw [hj']; exact downward (a - j) (by omega)

/-- On a w x h grid, a set of cells containing one in-bounds cell and closed
under in-bounds 4-neighbors contains every in-bounds cell. -/
theorem grid_reach (w h : Nat) (V : Nat → Nat → Prop) (sx sy : Nat)
    (hsx : sx < w) (hsy : sy < h) (hseed : V sx sy)
    (hclosed : ∀ x y, x < w → y < h → V x y →
      ∀ u v, Adjacent (x, y) (u, v) → u < w → v < h → V u v) :
    ∀ x y, x < w → y < h → V x y := by
  have hrow : ∀ x, x < w → V x sy := by
    refine span1D (fun x => V x sy) w sx hsx hseed ?_ ?_
    · intro i hi hVi
      exact hclosed i sy (by omega) hsy hVi (i + 1) sy (Or.inr ⟨rfl, Or.inr rfl⟩) hi hsy
    · intro i hi hVi
      exact hclosed (i + 1) sy hi hsy hVi i sy (Or.inr ⟨rfl, Or.inl rfl⟩) (by omega) hsy
  intro x y hx hy
  refine span1D (fun b => V x b) h sy hsy (hrow x hx) ?_ ?_ y hy
  · intro i hi hVi
    exact hclosed x i hx (by omega) hVi x (i + 1) (Or.inl ⟨rfl, Or.inr rfl⟩) hx hi
  · intro i hi hVi
    exact hclosed x (i + 1) hx hi hVi x i (Or.inl ⟨rfl, Or.inl rfl⟩) hx (by omega)

/-- A duplicate-free list of positions that are all in bounds and cover
every in-bounds position has length w*h. -/
theorem nodup_cover_length (L : List (Nat × Nat)) (w h : Nat) (hnd : L.Nodup)
    (hin : ∀ p ∈ L, p.1 < w ∧ p.2 < h) (hcov : ∀ x y, x < w → y < h → (x, y) ∈ L) :
    L.length = w * h := by
  have hfin : L.toFinset = Finset.range w ×ˢ Finset.range h := by
    ext p
    simp only [List.mem_toFinset, Finset.mem_product, Finset.mem_range]
    constructor
    · intro hp; exact hin p hp
    · intro ⟨h1, h2⟩
      have := hcov p.1 p.2 h1 h2
      simpa using this
  have hcard := congrArg Finset.card hfin
  rw [List.toFinset_card_of_nodup hnd, Finset.card_product, Finset.card_range,
    Finset.card_range] at hcard
  exact hcard

theorem floodLoop_nil (c : Canvas) (target newc : Cell) (visited : List Bool)
    (acc : List CellMutation) (hv : visited.length = c.width * c.height) :
    floodLoop c target newc [] visited acc hv = acc := by
  rw [floodLoop.eq_def]

theorem floodLoop_skip (c : Canvas) (target newc : Cell) (x y : Nat)
    (rest : List (Nat × Nat)) (visited : List Bool) (acc : List CellMutation)
    (hv : visited.length = c.width * c.height)
    (hskip : x ≥ c.width ∨ y ≥ c.height ∨ visited.getD (y * c.width + x) false = true) :
    floodLoop c target newc ((x, y) :: rest) visited acc hv
      = floodLoop c target newc rest visited acc hv := by
  rw [floodLoop.eq_def]
  simp only [dif_pos hskip]

theorem floodLoop_visit (c : Canvas) (target newc : Cell) (x y : Nat)
    (rest : List (Nat × Nat)) (visited : List Bool) (acc : List CellMutation)
    (hv : visited.length = c.width * c.height)
    (hskip : ¬(x ≥ c.width ∨ y ≥ c.height ∨ visited.getD (y * c.width + x) false = true))
    (hget : c.get x y = some target) :
    floodLoop c target newc ((x, y) :: rest) visited acc hv
      = floodLoop c target newc
          ((if y + 1 < c.height then [(x, y + 1)] else []) ++
           (if 0 < y then [(x, y - 1)] else []) ++
           (if x + 1 < c.width then [(x + 1, y)] else []) ++
           (if 0 < x then [(x - 1, y)] else []) ++ rest)
          (visited.set (y * c.width + x) true)
          (acc ++ [⟨x, y, target, newc⟩])
          (by rw [List.length_set]; exact hv) := by
  rw [floodLoop.eq_def]
  simp only [dif_neg hskip, hget]
  simp

/-- Marking the popped in-bounds unvisited cell, recording its mutation and
pushing its in-bounds neighbors preserves the loop invariant. -/
theorem floodInv_visit_step (c : Canvas) (target newc : Cell) (sx sy : Nat)
    (hsx : sx < c.width) (hsy : sy < c.height)
    {x y : Nat} {rest : List (Nat × Nat)} {visited : List Bool} {acc : List CellMutation}
    (hinv : FloodInv c sx sy ((x, y) :: rest) visited acc)
    (hx : x < c.width) (hy : y < c.height)
    (hvfalse : vAt c.width visited x y = false)
    (hv : visited.length = c.width * c.height) :
    FloodInv c sx sy
      ((if y + 1 < c.height then [(x, y + 1)] else []) ++
       (if 0 < y then [(x, y - 1)] else []) ++
       (if x + 1 < c.width then [(x + 1, y)] else []) ++
       (if 0 < x then [(x - 1, y)] else []) ++ rest)
      (visited.set (y * c.width + x) true)
      (acc ++ [⟨x, y, target, newc⟩]) := by
  refine ⟨?_, ?_, ?_, ?_, ?_⟩
  · intro u v hu hv2
    by_cases hp : (u, v) = (x, y)
    · rw [Prod.mk.injEq] at hp
      obtain ⟨rfl, rfl⟩ := hp
      refine iff_of_true (vAt_set_self visited hu hv2 hv) ?_
      simp [CellMutation.pos]
    · rw [vAt_set_ne visited hx hu hp, hinv.mem_iff u v hu hv2]
      simp [List.map_append, CellMutation.pos, hp]
  · rw [List.map_append]
    simp only [List.map_cons, List.map_nil]
    rw [List.nodup_append]
    refine ⟨hinv.nodup, List.nodup_singleton _, ?_⟩
    intro p hp hq
    simp only [List.mem_singleton, CellMutation.pos] at hq
    subst hq
    have hmem := (hinv.mem_iff x y hx hy).mpr hp
    rw [hvfalse] at hmem
    simp at hmem
  · intro p hp
    rw [List.map_append] at hp
    rcases List.mem_append.mp hp with h | h
    · exact hinv.bounded p h
    · simp only [List.map_cons, List.map_nil, List.mem_singleton, CellMutation.pos] at h
      subst h
      exact ⟨hx, hy⟩
  · intro a b ha hb hVis u v hadj hu hv2
    by_cases hab : (a, b) = (x, y)
    · rw [Prod.mk.injEq] at hab
      obtain ⟨rfl, rfl⟩ := hab
      right
      simp only [Adjacent] at hadj
      rcases hadj with ⟨he, hor⟩ | ⟨he, hor⟩
      · rcases hor with h2 | h2
        · have hcond : 0 < b := by omega
          have hmB : (u, v) ∈ (if 0 < b then [(a, b - 1)] else ([] : List (Nat × Nat))) := by
            rw [if_pos hcond]
            simp only [List.mem_singleton, Prod.mk.injEq]
            omega
          exact List.mem_append_left rest
            (List.mem_append_left _ (List.mem_append_left _ (List.mem_append_right _ hmB)))
        · have hcond : b + 1 < c.height := by omega
          have hmA : (u, v) ∈ (if b + 1 < c.height then [(a, b + 1)] else ([] : List (Nat × Nat))) := by
            rw [if_pos hcond]
            simp only [List.mem_singleton, Prod.mk.injEq]
            omega
          exact List.mem_append_left rest
            (List.mem_append_left _ (List.mem_append_left _ (List.mem_append_left _ hmA)))
      · rcases hor with h2 | h2
        · have hcond : 0 < a := by omega
          have hmD : (u, v) ∈ (if 0 < a then [(a - 1, b)] else ([] : List (Nat × Nat))) := by
            rw [if_pos hcond]
            simp only [List.mem_singleton, Prod.mk.injEq]
            omega
          exact List.mem_append_left rest (List.mem_append_right _ hmD)
        · have hcond : a + 1 < c.width := by omega
          have hmC : (u, v) ∈ (if a + 1 < c.width then [(a + 1, b)] else ([] : List (Nat × Nat))) := by
            rw [if_pos hcond]
            simp only [List.mem_singleton, Prod.mk.injEq]
            omega
          exact List.mem_append_left rest (List.mem_append_left _ (List.mem_append_right _ hmC))
    · have hVab : vAt c.width visited a b = true := by
        rw [← vAt_set_ne visited hx ha hab]
        exact hVis
      rcases hinv.closure a b ha hb hVab u v hadj hu hv2 with hc | hc
      · left
        by_cases hq : (u, v) = (x, y)
        · rw [Prod.mk.injEq] at hq
          obtain ⟨rfl, rfl⟩ := hq
          exact vAt_set_self visited hx hy hv
        · rw [vAt_set_ne visited hx hu hq]
          exact hc
      · rcases List.mem_cons.mp hc with hc | hc
        · left
          rw [Prod.mk.injEq] at hc
          obtain ⟨rfl, rfl⟩ := hc
          exact vAt_set_self visited hx hy hv
        · right
          exact List.mem_append_right _ hc
  · rcases hinv.seed_mem with hs | hs
    · left
      by_cases hq : (sx, sy) = (x, y)
      · rw [Prod.mk.injEq] at hq
        obtain ⟨h1, h2⟩ := hq
        subst h1; subst h2
        exact vAt_set_self visited hx hy hv
      · rw [vAt_set_ne visited hx hsx hq]
        exact hs
    · rcases List.mem_cons.mp hs with hs | hs
      · left
        rw [Prod.mk.injEq] at hs
        obtain ⟨h1, h2⟩ := hs
        subst h1; subst h2
        exact vAt_set_self visited hx hy hv
      · right
        exact List.mem_append_right _ hs

/-- The post-condition of the loop on a uniform canvas: the result has
duplicate-free, in-bounds positions covering every in-bounds cell. -/
theorem floodLoop_post (c : Canvas) (target newc : Cell) (sx sy : Nat)
    (hsx : sx < c.width) (hsy : sy < c.height)
    (huni : ∀ x y, x < c.width → y < c.height → c.cells y x = target) :
    ∀ (stack : List (Nat × Nat)) (visited : List Bool) (acc : List CellMutation)
      (hv : visited.length = c.width * c.height),
      FloodInv c sx sy stack visited acc →
      ((floodLoop c target newc stack visited acc hv).map CellMutation.pos).Nodup ∧
      (∀ p ∈ (floodLoop c target newc stack visited acc hv).map CellMutation.pos,
        p.1 < c.width ∧ p.2 < c.height) ∧
      (∀ x y, x < c.width → y < c.height →
        (x, y) ∈ (floodLoop c target newc stack visited acc hv).map CellMutation.pos) := by
  intro stack visited acc hv
  induction stack, visited, acc, hv using floodLoop.induct c target newc with
  | case1 visited acc hv =>
      intro hinv
      rw [floodLoop_nil]
      refine ⟨hinv.nodup, hinv.bounded, ?_⟩
      have hseed : vAt c.width visited sx sy = true := by
        rcases hinv.seed_mem with hs | hs
        · exact hs
        · simp at hs
      have hclosed : ∀ x y, x < c.width → y < c.height →
          vAt c.width visited x y = true →
          ∀ u v, Adjacent (x, y) (u, v) → u < c.width → v < c.height →
            vAt c.width visited u v = true := by
        intro x y hx hy hV u v hadj hu hv2
        rcases hinv.closure x y hx hy hV u v hadj hu hv2 with hc | hc
        · exact hc
        · simp at hc
      have hall := grid_reach c.width c.height
        (fun a b => vAt c.width visited a b = true) sx sy hsx hsy hseed hclosed
      intro x y hx hy
      exact (hinv.mem_iff x y hx hy).mp (hall x y hx hy)
  | case2 visited acc hv x y rest hskip ih =>
      intro hinv
      rw [floodLoop_skip c target newc x y rest visited acc hv hskip]
      refine ih ?_
      refine ⟨hinv.mem_iff, hinv.nodup, hinv.bounded, ?_, ?_⟩
      · intro a b ha hb hV u v hadj hu hv2
        rcases hinv.closure a b ha hb hV u v hadj hu hv2 with hc | hc
        · exact Or.inl hc
        · rcases List.mem_cons.mp hc with hc | hc
          · left
            obtain ⟨h1, h2⟩ := Prod.mk.injEq .. ▸ hc
            subst h1; subst h2
            rcases hskip with hs | hs | hs
            · omega
            · omega
            · unfold vAt; exact hs
          · exact Or.inr hc
      · rcases hinv.seed_mem with hs | hs
        · exact Or.inl hs
        · rcases List.mem_cons.mp hs with hs | hs
          · left
            obtain ⟨h1, h2⟩ := Prod.mk.injEq .. ▸ hs
            subst h1; subst h2
            rcases hskip with hs' | hs' | hs'
            · omega
            · omega
            · unfold vAt; exact hs'
          · exact Or.inr hs
  | case3 visited acc hv x y rest hskip hget ih =>
      intro _
      exfalso
      push_neg at hskip
      obtain ⟨hx, hy, _⟩ := hskip
      simp [Canvas.get, hx, hy] at hget
  | case4 visited acc hv x y rest hskip cell hget hne ih =>
      intro _
      exfalso
      push_neg at hskip
      obtain ⟨hx, hy, _⟩ := hskip
      rw [Canvas.get, if_pos ⟨hx, hy⟩, huni x y hx hy] at hget
      have heq : target = cell := by injection hget
      exact hne heq.symm
  | case5 visited acc hv x y rest hskip cell hget hne ih =>
      intro hinv
      have hskip' := hskip
      push_neg at hskip'
      obtain ⟨hx, hy, hnotv⟩ := hskip'
      have hvfalse : vAt c.width visited x y = false := by
        unfold vAt
        exact Bool.not_eq_true _ ▸ hnotv
      have hget' : c.get x y = some target := by
        rw [Canvas.get, if_pos ⟨hx, hy⟩, huni x y hx hy]
      rw [floodLoop_visit c target newc x y rest visited acc hv hskip hget']
      exact ih (floodInv_visit_step c target newc sx sy hsx hsy hinv hx hy hvfalse hv)

theorem vAt_replicate_false (w h u v : Nat) :
    vAt w (List.replicate (w * h) false) u v = false := by
  unfold vAt
  rw [List.getD_eq_getElem?_getD, List.getElem?_replicate]
  split <;> rfl

/-- Claim C2: on a canvas all of whose cells equal the seed value, with a
new cell value different from it, flood_fill returns exactly width*height
mutations whose positions are pairwise distinct and in bounds; and whenever
the seed cell already equals the new value, flood_fill returns nothing. -/
theorem flood_fill_spec :
    (∀ (c : Canvas) (target : Cell) (sx sy : Nat) (ch : Char) (fg bg : Option Rgb),
      sx < c.width → sy < c.height →
      (∀ x y, x < c.width → y < c.height → c.cells y x = target) →
      Cell.mk ch fg bg ≠ target →
      (flood_fill c sx sy ch fg bg).length = c.width * c.height ∧
      ((flood_fill c sx sy ch fg bg).map CellMutation.pos).Nodup ∧
      (∀ p ∈ (flood_fill c sx sy ch fg bg).map CellMutation.pos,
        p.1 < c.width ∧ p.2 < c.height)) ∧
    (∀ (c : Canvas) (sx sy : Nat) (ch : Char) (fg bg : Option Rgb),
      c.get sx sy = some (Cell.mk ch fg bg) →
      flood_fill c sx sy ch fg bg = []) := by
  constructor
  · intro c target sx sy ch fg bg hsx hsy huni hne
    have hget : c.get sx sy = some target := by
      rw [Canvas.get, if_pos ⟨hsx, hsy⟩, huni sx sy hsx hsy]
    have hstep : flood_fill c sx sy ch fg bg
        = floodLoop c target ⟨ch, fg, bg⟩ [(sx, sy)]
            (List.replicate (c.width * c.height) false) []
            (by rw [List.length_replicate]) := by
      simp only [flood_fill, hget]
      rw [if_neg (fun h => hne h.symm)]
    have hinv0 : FloodInv c sx sy [(sx, sy)]
        (List.replicate (c.width * c.height) false) [] := by
      refine ⟨?_, List.nodup_nil, ?_, ?_, Or.inr (List.mem_singleton_self _)⟩
      · intro u v hu hv2
        rw [vAt_replicate_false]
        simp
      · intro p hp
        simp at hp
      · intro a b ha hb hV u v hadj hu hv2
        rw [vAt_replicate_false] at hV
        simp at hV
    have hpost := floodLoop_post c target ⟨ch, fg, bg⟩ sx sy hsx hsy huni
      [(sx, sy)] (List.replicate (c.width * c.height) false) []
      (by rw [List.length_replicate]) hinv0
    rw [hstep]
    refine ⟨?_, hpost.1, hpost.2.1⟩
    have hlen := nodup_cover_length _ c.width c.height hpost.1 hpost.2.1 hpost.2.2
    rwa [List.length_map] at hlen
  · intro c sx sy ch fg bg hget
    simp [flood_fill, hget]

theorem flood_fill_spec_witness :
    (flood_fill (uniformCanvas 32 32 Cell.default) 0 0 blocks.FULL
        (some ⟨205, 0, 0⟩) none).length = 1024 ∧
    flood_fill (uniformCanvas 8 8 Cell.default) 0 0 ' ' (some Rgb.WHITE) none = [] :=
  ⟨(flood_fill_spec.1 (uniformCanvas 32 32 Cell.default) Cell.default 0 0 blocks.FULL
      (some ⟨205, 0, 0⟩) none (by decide) (by decide)
      (fun _ _ _ _ => rfl) (by decide)).1,
   flood_fill_spec.2 (uniformCanvas 8 8 Cell.default) 0 0 ' ' (some Rgb.WHITE) none rfl⟩

/-! ### Bresenham line -/

/-- One iteration body of the Bresenham loop: with e2 = 2*err computed
before any update, advance x (and add dy to err) when e2 >= dy, and advance
y (and add dx to err) when e2 <= dx.  Returns (new x, new y, new err). -/
def bresStep (dx dy sx sy x y err : Int) : Int × Int × Int :=
  ((if 2 * err ≥ dy then x + sx else x),
   (if 2 * err ≤ dx then y + sy else y),
   ((if 2 * err ≥ dy then err + dy else err) + (if 2 * err ≤ dx then dx else 0)))

/-- The state invariant of the Bresenham loop against the target (x1, y1):
sx and sy are units, dx >= 0 >= dy, the remaining distances (x1-x)*sx and
(y1-y)*sy lie within [0, dx] and [0, -dy], and err carries its closed form
in terms of those distances. -/
def BresState (x1 y1 sx sy dx dy x y err : Int) : Prop :=
  (sx = 1 ∨ sx = -1) ∧ (sy = 1 ∨ sy = -1) ∧ 0 ≤ dx ∧ dy ≤ 0 ∧
  0 ≤ (x1 - x) * sx ∧ (x1 - x) * sx ≤ dx ∧
  0 ≤ (y1 - y) * sy ∧ (y1 - y) * sy ≤ -dy ∧
  err = dx + dy + (x1 - x) * sx * (-dy) - (y1 - y) * sy * dx

theorem bres_no_x_overshoot (dx dy ry err : Int) (hdx : 0 ≤ dx) (hdy : dy ≤ 0)
    (hry1 : 1 ≤ ry) (hryd : ry ≤ -dy)
    (herr : err = dx + dy - ry * dx) : ¬(2 * err ≥ dy) := by
  intro hTx
  have hid : (ry - 1) * dx = ry * dx - dx := by ring
  have hnn : 0 ≤ (ry - 1) * dx := mul_nonneg (by omega) hdx
  have hdy0 : 0 ≤ dy := by linarith
  linarith

theorem bres_no_y_overshoot (dx dy rx err : Int) (hdx : 0 ≤ dx) (hdy : dy ≤ 0)
    (hrx1 : 1 ≤ rx) (hrxd : rx ≤ dx)
    (herr : err = dx + dy + rx * (-dy)) : ¬(2 * err ≤ dx) := by
  intro hTy
  have hid : (rx - 1) * (-dy) = rx * (-dy) - (-dy) := by ring
  have hnn : 0 ≤ (rx - 1) * (-dy) := mul_nonneg (by omega) (by omega)
  have hdx0 : dx ≤ 0 := by linarith
  linarith

theorem int_eq_zero_of_lt_one (A : Int) (h1 : 0 ≤ A) (h2 : ¬(1 ≤ A)) : A = 0 := by
  omega

theorem int_meas_both (A B : Int) (hA : 1 ≤ A) (hB : 1 ≤ B) :
    (A - 1 + (B - 1)).toNat < (A + B).toNat := by omega

theorem int_meas_left (A B : Int) (hA : 1 ≤ A) (hB : 0 ≤ B) :
    (A - 1 + B).toNat < (A + B).toNat := by omega

theorem int_meas_right (A B : Int) (hA : 0 ≤ A) (hB : 1 ≤ B) :
    (A + (B - 1)).toNat < (A + B).toNat := by omega

/-- The step taken from a valid non-final state preserves the invariant and
strictly decreases the total remaining distance. -/
theorem bresStep_inv (x1 y1 sx sy dx dy x y err : Int)
    (h : BresState x1 y1 sx sy dx dy x y err) (hne : ¬(x = x1 ∧ y = y1)) :
    BresState x1 y1 sx sy dx dy (bresStep dx dy sx sy x y err).1
        (bresStep dx dy sx sy x y err).2.1 (bresStep dx dy sx sy x y err).2.2 ∧
      ((x1 - (bresStep dx dy sx sy x y err).1) * sx
          + (y1 - (bresStep dx dy sx sy x y err).2.1) * sy).toNat
        < ((x1 - x) * sx + (y1 - y) * sy).toNat := by
  obtain ⟨hsx, hsy, hdx, hdy, hrx0, hrxd, hry0, hryd, herr⟩ := h
  have hsq : sx * sx = 1 := by rcases hsx with h | h <;> rw [h] <;> ring
  have hsq' : sy * sy = 1 := by rcases hsy with h | h <;> rw [h] <;> ring
  have hone : 1 ≤ (x1 - x) * sx ∨ 1 ≤ (y1 - y) * sy := by
    by_contra hcon
    push_neg at hcon
    obtain ⟨ha, hb⟩ := hcon
    refine hne ⟨?_, ?_⟩
    · rcases hsx with h | h <;> rw [h] at ha hrx0 <;> omega
    · rcases hsy with h | h <;> rw [h] at hb hry0 <;> omega
  have hrx_of_Tx : 2 * err ≥ dy → 1 ≤ (x1 - x) * sx := by
    intro hTx
    by_contra hcon
    have hrxz : (x1 - x) * sx = 0 := int_eq_zero_of_lt_one _ hrx0 hcon
    have hry1 : 1 ≤ (y1 - y) * sy := by
      rcases hone with h | h
      · rw [hrxz] at h; norm_num at h
      · exact h
    have herr' : err = dx + dy - (y1 - y) * sy * dx := by
      rw [herr, hrxz]; ring
    exact bres_no_x_overshoot dx dy ((y1 - y) * sy) err hdx hdy hry1 hryd herr' hTx
  have hry_of_Ty : 2 * err ≤ dx → 1 ≤ (y1 - y) * sy := by
    intro hTy
    by_contra hcon
    have hryz : (y1 - y) * sy = 0 := int_eq_zero_of_lt_one _ hry0 hcon
    have hrx1 : 1 ≤ (x1 - x) * sx := by
      rcases hone with h | h
      · exact h
      · rw [hryz] at h; norm_num at h
    have herr' : err = dx + dy + (x1 - x) * sx * (-dy) := by
      rw [herr, hryz]; ring
    exact bres_no_y_overshoot dx dy ((x1 - x) * sx) err hdx hdy hrx1 hrxd herr' hTy
  have hrx'eq : (x1 - (x + sx)) * sx = (x1 - x) * sx - 1 := by
    have hh : (x1 - (x + sx)) * sx = (x1 - x) * sx - sx * sx := by ring
    rw [hh, hsq]
  have hry'eq : (y1 - (y + sy)) * sy = (y1 - y) * sy - 1 := by
    have hh : (y1 - (y + sy)) * sy = (y1 - y) * sy - sy * sy := by ring
    rw [hh, hsq']
  by_cases hTx : 2 * err ≥ dy <;> by_cases hTy : 2 * err ≤ dx
  · have hrx1 := hrx_of_Tx hTx
    have hry1 := hry_of_Ty hTy
    have hstep : bresStep dx dy sx sy x y err = (x + sx, y + sy, err + dy + dx) := by
      simp [bresStep, hTx, hTy]
    rw [hstep]
    refine ⟨⟨hsx, hsy, hdx, hdy, ?_, ?_, ?_, ?_, ?_⟩, ?_⟩
    · rw [hrx'eq]; linarith
    · rw [hrx'eq]; linarith
    · rw [hry'eq]; linarith
    · rw [hry'eq]; linarith
    · rw [hrx'eq, hry'eq]
      linear_combination herr
    · rw [hrx'eq, hry'eq]
      exact int_meas_both _ _ hrx1 hry1
  · have hrx1 := hrx_of_Tx hTx
    have hstep : bresStep dx dy sx sy x y err = (x + sx, y, err + dy) := by
      simp [bresStep, hTx, hTy]
    rw [hstep]
    refine ⟨⟨hsx, hsy, hdx, hdy, ?_, ?_, hry0, hryd, ?_⟩, ?_⟩
    · rw [hrx'eq]; linarith
    · rw [hrx'eq]; linarith
    · rw [hrx'eq]
      linear_combination herr
    · rw [hrx'eq]
      exact int_meas_left _ _ hrx1 hry0
  · have hry1 := hry_of_Ty hTy
    have hstep : bresStep dx dy sx sy x y err = (x, y + sy, err + dx) := by
      simp [bresStep, hTx, hTy]
    rw [hstep]
    refine ⟨⟨hsx, hsy, hdx, hdy, hrx0, hrxd, ?_, ?_, ?_⟩, ?_⟩
    · rw [hry'eq]; linarith
    · rw [hry'eq]; linarith
    · rw [hry'eq]
      linear_combination herr
    · rw [hry'eq]
      exact int_meas_right _ _ hrx0 hry1
  · exfalso
    clear herr
    rcases (by omega : 2 * err ≥ dy ∨ 2 * err ≤ dx) with h | h
    · exact hTx h
    · exact hTy h

/-- The Bresenham loop: push the current point (cast back to usize exactly
as the source casts), stop when the target is reached, otherwise step.  The
loop is defined on states satisfying BresState; outside of those states the
source loop can diverge, and every state reachable from bresenham_line
satisfies the invariant. -/
def bresLoopGo (x1 y1 sx sy dx dy : Int) (x y err : Int)
    (h : BresState x1 y1 sx sy dx dy x y err) : List (Nat × Nat) :=
  if hxy : x = x1 ∧ y = y1 then [(x.toNat, y.toNat)]
  else
    (x.toNat, y.toNat) ::
      bresLoopGo x1 y1 sx sy dx dy
        (bresStep dx dy sx sy x y err).1
        (bresStep dx dy sx sy x y err).2.1
        (bresStep dx dy sx sy x y err).2.2
        (bresStep_inv x1 y1 sx sy dx dy x y err h hxy).1
termination_by ((x1 - x) * sx + (y1 - y) * sy).toNat
decreasing_by exact (bresStep_inv x1 y1 sx sy dx dy x y err h hxy).2

theorem bresLoopGo_base (x1 y1 sx sy dx dy x y err : Int)
    (h : BresState x1 y1 sx sy dx dy x y err) (hxy : x = x1 ∧ y = y1) :
    bresLoopGo x1 y1 sx sy dx dy x y err h = [(x.toNat, y.toNat)] := by
  rw [bresLoopGo.eq_def, dif_pos hxy]

theorem bresLoopGo_step (x1 y1 sx sy dx dy x y err : Int)
    (h : BresState x1 y1 sx sy dx dy x y err) (hxy : ¬(x = x1 ∧ y = y1)) :
    bresLoopGo x1 y1 sx sy dx dy x y err h
      = (x.toNat, y.toNat) ::
          bresLoopGo x1 y1 sx sy dx dy
            (bresStep dx dy sx sy x y err).1
            (bresStep dx dy sx sy x y err).2.1
            (bresStep dx dy sx sy x y err).2.2
            (bresStep_inv x1 y1 sx sy dx dy x y err h hxy).1 := by
  rw [bresLoopGo.eq_def, dif_neg hxy]

/-- The initial Bresenham state is valid. -/
theorem bresState_init (x0 y0 x1 y1 : Nat) :
    BresState (x1 : Int) (y1 : Int)
      (if (x0 : Int) < x1 then 1 else -1) (if (y0 : Int) < y1 then 1 else -1)
      (((x1 : Int) - x0).natAbs) (-(((y1 : Int) - y0).natAbs : Int))
      (x0 : Int) (y0 : Int)
      ((((x1 : Int) - x0).natAbs : Int) + -(((y1 : Int) - y0).natAbs : Int)) := by
  unfold BresState
  split_ifs with h1 h2 h2 <;>
    refine ⟨by norm_num, by norm_num, by omega, by omega, by omega, by omega,
      by omega, by omega, ?_⟩
  · have hdx' : ((((x1 : Int) - x0).natAbs : Int)) = (x1 : Int) - x0 := by omega
    have hdy' : ((((y1 : Int) - y0).natAbs : Int)) = (y1 : Int) - y0 := by omega
    rw [hdx', hdy']; ring
  · have hdx' : ((((x1 : Int) - x0).natAbs : Int)) = (x1 : Int) - x0 := by omega
    have hdy' : ((((y1 : Int) - y0).natAbs : Int)) = (y0 : Int) - y1 := by omega
    rw [hdx', hdy']; ring
  · have hdx' : ((((x1 : Int) - x0).natAbs : Int)) = (x0 : Int) - x1 := by omega
    have hdy' : ((((y1 : Int) - y0).natAbs : Int)) = (y1 : Int) - y0 := by omega
    rw [hdx', hdy']; ring
  · have hdx' : ((((x1 : Int) - x0).natAbs : Int)) = (x0 : Int) - x1 := by omega
    have hdy' : ((((y1 : Int) - y0).natAbs : Int)) = (y0 : Int) - y1 := by omega
    rw [hdx', hdy']; ring

/-- bresenham_line from the source: signed working copies of the inputs,
dx = |x1-x0|, dy = -|y1-y0|, unit steps toward the target, err = dx + dy,
then the loop. -/
def bresenham_line (x0 y0 x1 y1 : Nat) : List (Nat × Nat) :=
  bresLoopGo (x1 : Int) (y1 : Int)
    (if (x0 : Int) < x1 then 1 else -1) (if (y0 : Int) < y1 then 1 else -1)
    (((x1 : Int) - x0).natAbs) (-(((y1 : Int) - y0).natAbs : Int))
    (x0 : Int) (y0 : Int)
    ((((x1 : Int) - x0).natAbs : Int) + -(((y1 : Int) - y0).natAbs : Int))
    (bresState_init x0 y0 x1 y1)

/-- Fuel-indexed version of the loop, used to evaluate concrete lines. -/
def bresLoopFuel (x1 y1 sx sy dx dy : Int) :
    Nat → Int → Int → Int → List (Nat × Nat)
  | 0, x, y, _ => [(x.toNat, y.toNat)]
  | fuel + 1, x, y, err =>
      if x = x1 ∧ y = y1 then [(x.toNat, y.toNat)]
      else
        (x.toNat, y.toNat) ::
          bresLoopFuel x1 y1 sx sy dx dy fuel
            (bresStep dx dy sx sy x y err).1
            (bresStep dx dy sx sy x y err).2.1
            (bresStep dx dy sx sy x y err).2.2

theorem bresLoopGo_eq_fuel (x1 y1 sx sy dx dy : Int) :
    ∀ (x y err : Int) (h : BresState x1 y1 sx sy dx dy x y err) (fuel : Nat),
      ((x1 - x) * sx + (y1 - y) * sy).toNat ≤ fuel →
      bresLoopGo x1 y1 sx sy dx dy x y err h
        = bresLoopFuel x1 y1 sx sy dx dy fuel x y err := by
  intro x y err h
  induction x, y, err, h using bresLoopGo.induct x1 y1 sx sy dx dy with
  | case1 x y err h hxy =>
      intro fuel hfuel
      rw [bresLoopGo_base x1 y1 sx sy dx dy x y err h hxy]
      cases fuel with
      | zero => rfl
      | succ f => rw [bresLoopFuel, if_pos hxy]
  | case2 x y err h hxy ih =>
      intro fuel hfuel
      rw [bresLoopGo_step x1 y1 sx sy dx dy x y err h hxy]
      cases fuel with
      | zero =>
          exfalso
          have hdec := (bresStep_inv x1 y1 sx sy dx dy x y err h hxy).2
          omega
      | succ f =>
          rw [bresLoopFuel, if_neg hxy]
          congr 1
          exact ih f (by
            have hdec := (bresStep_inv x1 y1 sx sy dx dy x y err h hxy).2
            omega)

theorem bresenham_line_fuel (x0 y0 x1 y1 : Nat) :
    bresenham_line x0 y0 x1 y1
      = bresLoopFuel (x1 : Int) (y1 : Int)
          (if (x0 : Int) < x1 then 1 else -1) (if (y0 : Int) < y1 then 1 else -1)
          (((x1 : Int) - x0).natAbs) (-(((y1 : Int) - y0).natAbs : Int))
          (((x1 : Int) - x0).natAbs + ((y1 : Int) - y0).natAbs)
          (x0 : Int) (y0 : Int)
          ((((x1 : Int) - x0).natAbs : Int) + -(((y1 : Int) - y0).natAbs : Int)) := by
  unfold bresenham_line
  apply bresLoopGo_eq_fuel
  split_ifs <;> omega

/-- The error-range invariant of the Bresenham loop: on x-major lines
(dx >= -dy) twice the error stays in (dx+2dy, 3dx+2dy], on y-major lines in
[2dx+3dy, 2dx+dy).  It forces the major axis to advance on every step. -/
def BresRange (dx dy err : Int) : Prop :=
  (0 ≤ dx + dy → dx + 2 * dy < 2 * err ∧ 2 * err ≤ 3 * dx + 2 * dy) ∧
  (dx + dy ≤ 0 → 2 * dx + 3 * dy ≤ 2 * err ∧ 2 * err < 2 * dx + dy)

theorem bresRange_init (dx dy : Int) (hdx : 0 ≤ dx) (hdy : dy ≤ 0)
    (hne : ¬(dx = 0 ∧ dy = 0)) : BresRange dx dy (dx + dy) := by
  unfold BresRange
  constructor <;> intro <;> omega

theorem bresRange_step (dx dy err : Int) (hdx : 0 ≤ dx) (hdy : dy ≤ 0)
    (hr : BresRange dx dy err) :
    BresRange dx dy
      ((if 2 * err ≥ dy then err + dy else err) + (if 2 * err ≤ dx then dx else 0)) := by
  unfold BresRange at *
  split_ifs <;> constructor <;> intro <;> omega

theorem bresState_progress (x1 y1 sx sy dx dy x y err : Int)
    (h : BresState x1 y1 sx sy dx dy x y err) (hne : ¬(x = x1 ∧ y = y1)) :
    1 ≤ (x1 - x) * sx ∨ 1 ≤ (y1 - y) * sy := by
  obtain ⟨hsx, hsy, hdx, hdy, hrx0, hrxd, hry0, hryd, herr⟩ := h
  by_contra hcon
  push_neg at hcon
  obtain ⟨ha, hb⟩ := hcon
  refine hne ⟨?_, ?_⟩
  · rcases hsx with hs | hs <;> rw [hs] at ha hrx0 <;> omega
  · rcases hsy with hs | hs <;> rw [hs] at hb hry0 <;> omega

theorem bresState_Tx_pos (x1 y1 sx sy dx dy x y err : Int)
    (h : BresState x1 y1 sx sy dx dy x y err) (hne : ¬(x = x1 ∧ y = y1))
    (hTx : 2 * err ≥ dy) : 1 ≤ (x1 - x) * sx := by
  have hone := bresState_progress x1 y1 sx sy dx dy x y err h hne
  obtain ⟨hsx, hsy, hdx, hdy, hrx0, hrxd, hry0, hryd, herr⟩ := h
  by_contra hcon
  have hrxz : (x1 - x) * sx = 0 := int_eq_zero_of_lt_one _ hrx0 hcon
  have hry1 : 1 ≤ (y1 - y) * sy := by
    rcases hone with hh | hh
    · rw [hrxz] at hh; norm_num at hh
    · exact hh
  have herr' : err = dx + dy - (y1 - y) * sy * dx := by
    rw [herr, hrxz]; ring
  exact bres_no_x_overshoot dx dy ((y1 - y) * sy) err hdx hdy hry1 hryd herr' hTx

theorem bresState_Ty_pos (x1 y1 sx sy dx dy x y err : Int)
    (h : BresState x1 y1 sx sy dx dy x y err) (hne : ¬(x = x1 ∧ y = y1))
    (hTy : 2 * err ≤ dx) : 1 ≤ (y1 - y) * sy := by
  have hone := bresState_progress x1 y1 sx sy dx dy x y err h hne
  obtain ⟨hsx, hsy, hdx, hdy, hrx0, hrxd, hry0, hryd, herr⟩ := h
  by_contra hcon
  have hryz : (y1 - y) * sy = 0 := int_eq_zero_of_lt_one _ hry0 hcon
  have hrx1 : 1 ≤ (x1 - x) * sx := by
    rcases hone with hh | hh
    · exact hh
    · rw [hryz] at hh; norm_num at hh
  have herr' : err = dx + dy + (x1 - x) * sx * (-dy) := by
    rw [herr, hryz]; ring
  exact bres_no_y_overshoot dx dy ((x1 - x) * sx) err hdx hdy hrx1 hrxd herr' hTy

theorem bres_minor_lag_x (dx dy rx ry err : Int) (hdx : 0 ≤ dx) (hdy : dy ≤ 0)
    (hrx0 : 0 ≤ rx) (hry0 : 0 ≤ ry)
    (herr : err = dx + dy + rx * (-dy) - ry * dx)
    (hmaj : 0 ≤ dx + dy) (hnoty : ¬(2 * err ≤ dx)) (hne : 1 ≤ rx ∨ 1 ≤ ry) :
    ry < rx := by
  by_contra hcon
  push_neg at hcon
  by_cases hry1 : 1 ≤ ry
  · have hE : 2 * err - dx = dx + 2 * dy + 2 * (rx * (-dy)) - 2 * (ry * dx) := by
      rw [herr]; ring
    have h1 : rx * (-dy) ≤ ry * (-dy) := mul_le_mul_of_nonneg_right hcon (by omega)
    have h2 : ry * (-dy - dx) ≤ 1 * (-dy - dx) :=
      mul_le_mul_of_nonpos_right hry1 (by omega)
    have h3 : ry * (-dy) - ry * dx = ry * (-dy - dx) := by ring
    linarith
  · omega

theorem bres_minor_lag_y (dx dy rx ry err : Int) (hdx : 0 ≤ dx) (hdy : dy ≤ 0)
    (hrx0 : 0 ≤ rx) (hry0 : 0 ≤ ry)
    (herr : err = dx + dy + rx * (-dy) - ry * dx)
    (hmaj : dx + dy ≤ 0) (hnotx : ¬(2 * err ≥ dy)) (hne : 1 ≤ rx ∨ 1 ≤ ry) :
    rx < ry := by
  by_contra hcon
  push_neg at hcon
  by_cases hrx1 : 1 ≤ rx
  · have hE : dy - 2 * err = -2 * dx - dy - 2 * (rx * (-dy)) + 2 * (ry * dx) := by
      rw [herr]; ring
    have h1 : ry * dx ≤ rx * dx := mul_le_mul_of_nonneg_right hcon hdx
    have h2 : rx * (dx + dy) ≤ 1 * (dx + dy) :=
      mul_le_mul_of_nonpos_right hrx1 hmaj
    have h3 : rx * dx - rx * (-dy) = rx * (dx + dy) := by ring
    linarith
  · omega

theorem int_len_both (A B : Int) (hA : 1 ≤ A) (hB : 1 ≤ B) :
    (max (A - 1) (B - 1)).toNat + 1 + 1 = (max A B).toNat + 1 := by omega

theorem int_len_left (A B : Int) (hA : 1 ≤ A) (hB : 0 ≤ B) (hBA : B < A) :
    (max (A - 1) B).toNat + 1 + 1 = (max A B).toNat + 1 := by omega

theorem int_len_right (A B : Int) (hA : 0 ≤ A) (hB : 1 ≤ B) (hAB : A < B) :
    (max A (B - 1)).toNat + 1 + 1 = (max A B).toNat + 1 := by omega

/-- The loop emits exactly max(remaining x distance, remaining y distance)+1
points from any state satisfying both invariants. -/
theorem bresLoopGo_length (x1 y1 sx sy dx dy : Int) :
    ∀ (x y err : Int) (h : BresState x1 y1 sx sy dx dy x y err),
      BresRange dx dy err ∨ (x = x1 ∧ y = y1) →
      (bresLoopGo x1 y1 sx sy dx dy x y err h).length
        = (max ((x1 - x) * sx) ((y1 - y) * sy)).toNat + 1 := by
  intro x y err h
  induction x, y, err, h using bresLoopGo.induct x1 y1 sx sy dx dy with
  | case1 x y err h hxy =>
      intro _
      rw [bresLoopGo_base x1 y1 sx sy dx dy x y err h hxy]
      simp [hxy.1, hxy.2]
  | case2 x y err h hxy ih =>
      intro hrange
      rcases hrange with hrange | hdone
      swap
      · exact absurd hdone hxy
      have hone := bresState_progress x1 y1 sx sy dx dy x y err h hxy
      have hparts := h
      obtain ⟨hsx, hsy, hdx, hdy, hrx0, hrxd, hry0, hryd, herr⟩ := hparts
      have hsq : sx * sx = 1 := by rcases hsx with hs | hs <;> rw [hs] <;> ring
      have hsq' : sy * sy = 1 := by rcases hsy with hs | hs <;> rw [hs] <;> ring
      have hrx'eq : (x1 - (x + sx)) * sx = (x1 - x) * sx - 1 := by
        have hh : (x1 - (x + sx)) * sx = (x1 - x) * sx - sx * sx := by ring
        rw [hh, hsq]
      have hry'eq : (y1 - (y + sy)) * sy = (y1 - y) * sy - 1 := by
        have hh : (y1 - (y + sy)) * sy = (y1 - y) * sy - sy * sy := by ring
        rw [hh, hsq']
      have hrange' := bresRange_step dx dy err hdx hdy hrange
      rw [bresLoopGo_step x1 y1 sx sy dx dy x y err h hxy]
      simp only [List.length_cons]
      rw [ih (Or.inl hrange')]
      by_cases hTx : 2 * err ≥ dy <;> by_cases hTy : 2 * err ≤ dx
      · have hrx1 := bresState_Tx_pos x1 y1 sx sy dx dy x y err h hxy hTx
        have hry1 := bresState_Ty_pos x1 y1 sx sy dx dy x y err h hxy hTy
        have hstep : bresStep dx dy sx sy x y err = (x + sx, y + sy, err + dy + dx) := by
          simp [bresStep, hTx, hTy]
        simp only [hstep]
        rw [hrx'eq, hry'eq]
        exact int_len_both _ _ hrx1 hry1
      · have hrx1 := bresState_Tx_pos x1 y1 sx sy dx dy x y err h hxy hTx
        have hmaj : 0 ≤ dx + dy := by
          by_contra hc
          push_neg at hc
          obtain ⟨_, hu⟩ := hrange.2 (le_of_lt hc)
          omega
        have hlag := bres_minor_lag_x dx dy ((x1 - x) * sx) ((y1 - y) * sy) err
          hdx hdy hrx0 hry0 herr hmaj hTy hone
        have hstep : bresStep dx dy sx sy x y err = (x + sx, y, err + dy) := by
          simp [bresStep, hTx, hTy]
        simp only [hstep]
        rw [hrx'eq]
        exact int_len_left _ _ hrx1 hry0 hlag
      · have hry1 := bresState_Ty_pos x1 y1 sx sy dx dy x y err h hxy hTy
        have hmaj : dx + dy ≤ 0 := by
          by_contra hc
          push_neg at hc
          obtain ⟨hl, _⟩ := hrange.1 (le_of_lt hc)
          omega
        have hlag := bres_minor_lag_y dx dy ((x1 - x) * sx) ((y1 - y) * sy) err
          hdx hdy hrx0 hry0 herr hmaj hTx hone
        have hstep : bresStep dx dy sx sy x y err = (x, y + sy, err + dx) := by
          simp [bresStep, hTx, hTy]
        simp only [hstep]
        rw [hry'eq]
        exact int_len_right _ _ hrx0 hry1 hlag
      · exfalso
        clear herr
        rcases (by omega : 2 * err ≥ dy ∨ 2 * err ≤ dx) with hh | hh
        · exact hTx hh
        · exact hTy hh

theorem bresLoopGo_head (x1 y1 sx sy dx dy x y err : Int)
    (h : BresState x1 y1 sx sy dx dy x y err) :
    (bresLoopGo x1 y1 sx sy dx dy x y err h).head? = some (x.toNat, y.toNat) := by
  rw [bresLoopGo.eq_def]
  split <;> rfl

theorem bresLoopGo_ne_nil (x1 y1 sx sy dx dy x y err : Int)
    (h : BresState x1 y1 sx sy dx dy x y err) :
    bresLoopGo x1 y1 sx sy dx dy x y err h ≠ [] := by
  rw [bresLoopGo.eq_def]
  split <;> simp

theorem bresLoopGo_last (x1 y1 sx sy dx dy : Int) :
    ∀ (x y err : Int) (h : BresState x1 y1 sx sy dx dy x y err),
      (bresLoopGo x1 y1 sx sy dx dy x y err h).getLast?
        = some (x1.toNat, y1.toNat) := by
  intro x y err h
  induction x, y, err, h using bresLoopGo.induct x1 y1 sx sy dx dy with
  | case1 x y err h hxy =>
      rw [bresLoopGo_base x1 y1 sx sy dx dy x y err h hxy]
      rw [hxy.1, hxy.2]
      rfl
  | case2 x y err h hxy ih =>
      rw [bresLoopGo_step x1 y1 sx sy dx dy x y err h hxy]
      obtain ⟨c, t, hct⟩ := List.exists_cons_of_ne_nil
        (bresLoopGo_ne_nil x1 y1 sx sy dx dy _ _ _
          (bresStep_inv x1 y1 sx sy dx dy x y err h hxy).1)
      rw [hct, List.getLast?_cons_cons, ← hct]
      exact ih

/-- Claim C4: bresenham_line returns exactly max(|dx|, |dy|)+1 points, the
first being (x0, y0) and the last (x1, y1); in particular the line from
(0,0) to (5,0) is the six points (0,0) through (5,0). -/
theorem bresenham_line_spec :
    (∀ x0 y0 x1 y1 : Nat,
      (bresenham_line x0 y0 x1 y1).length
        = max ((x1 : Int) - x0).natAbs ((y1 : Int) - y0).natAbs + 1 ∧
      (bresenham_line x0 y0 x1 y1).head? = some (x0, y0) ∧
      (bresenham_line x0 y0 x1 y1).getLast? = some (x1, y1)) ∧
    bresenham_line 0 0 5 0 = [(0, 0), (1, 0), (2, 0), (3, 0), (4, 0), (5, 0)] := by
  constructor
  · intro x0 y0 x1 y1
    refine ⟨?_, ?_, ?_⟩
    · have hQ : BresRange (((x1 : Int) - x0).natAbs) (-(((y1 : Int) - y0).natAbs : Int))
          ((((x1 : Int) - x0).natAbs : Int) + -(((y1 : Int) - y0).natAbs : Int))
          ∨ ((x0 : Int) = (x1 : Int) ∧ (y0 : Int) = (y1 : Int)) := by
        by_cases hdone : ((x0 : Int) = (x1 : Int) ∧ (y0 : Int) = (y1 : Int))
        · exact Or.inr hdone
        · refine Or.inl (bresRange_init _ _ (by omega) (by omega) ?_)
          intro ⟨ha, hb⟩
          exact hdone ⟨by omega, by omega⟩
      have hlen := bresLoopGo_length (x1 : Int) (y1 : Int)
        (if (x0 : Int) < x1 then 1 else -1) (if (y0 : Int) < y1 then 1 else -1)
        (((x1 : Int) - x0).natAbs) (-(((y1 : Int) - y0).natAbs : Int))
        (x0 : Int) (y0 : Int)
        ((((x1 : Int) - x0).natAbs : Int) + -(((y1 : Int) - y0).natAbs : Int))
        (bresState_init x0 y0 x1 y1) hQ
      unfold bresenham_line
      rw [hlen]
      split_ifs <;> omega
    · unfold bresenham_line
      rw [bresLoopGo_head]
      simp
    · unfold bresenham_line
      rw [bresLoopGo_last]
      simp
  · rw [bresenham_line_fuel]
    decide

theorem bresLoopGo_congr_params (a1 a2 a3 a4 a5 a6 a7 a8 a9 b1 b2 b3 b4 b5 b6 b7 b8 b9 : Int)
    (h1 : a1 = b1) (h2 : a2 = b2) (h3 : a3 = b3) (h4 : a4 = b4) (h5 : a5 = b5)
    (h6 : a6 = b6) (h7 : a7 = b7) (h8 : a8 = b8) (h9 : a9 = b9)
    (hA : BresState a1 a2 a3 a4 a5 a6 a7 a8 a9)
    (hB : BresState b1 b2 b3 b4 b5 b6 b7 b8 b9) :
    bresLoopGo a1 a2 a3 a4 a5 a6 a7 a8 a9 hA
      = bresLoopGo b1 b2 b3 b4 b5 b6 b7 b8 b9 hB := by
  subst h1; subst h2; subst h3; subst h4; subst h5
  subst h6; subst h7; subst h8; subst h9
  rfl

theorem bresState_x_nonneg (x1 y1 sx sy dx dy x y err : Int)
    (h : BresState x1 y1 sx sy dx dy x y err)
    (h1 : 0 ≤ x1) (h2 : 0 ≤ x1 - sx * dx) : 0 ≤ x := by
  obtain ⟨hsx, _, hdx, _, hrx0, hrxd, _, _, _⟩ := h
  rcases hsx with hs | hs <;> rw [hs] at hrx0 hrxd h2 <;> omega

theorem bresState_y_nonneg (x1 y1 sx sy dx dy x y err : Int)
    (h : BresState x1 y1 sx sy dx dy x y err)
    (h1 : 0 ≤ y1) (h2 : 0 ≤ y1 + sy * dy) : 0 ≤ y := by
  obtain ⟨_, hsy, _, hdy, _, _, hry0, hryd, _⟩ := h
  rcases hsy with hs | hs <;> rw [hs] at hry0 hryd h2 <;> omega

/-- Running the loop toward the opposite endpoint with mirrored directions
from the mirrored start (about cx, cy) produces exactly the pointwise
mirrored points, because the error dynamics depend only on dx, dy and a
coordinate whose direction does not mirror (degenerate axis) never moves. -/
theorem bresLoopGo_rot (cx cy x1 y1 sx sy sx' sy' dx dy : Int)
    (hsxr : sx' = -sx ∨ dx = 0) (hsyr : sy' = -sy ∨ dy = 0)
    (hx1n : 0 ≤ x1) (hx0n : 0 ≤ x1 - sx * dx)
    (hy1n : 0 ≤ y1) (hy0n : 0 ≤ y1 + sy * dy) :
    ∀ (x y err : Int) (hA : BresState x1 y1 sx sy dx dy x y err)
      (hB : BresState (cx - x1) (cy - y1) sx' sy' dx dy (cx - x) (cy - y) err)
      (hrange : BresRange dx dy err ∨ (x = x1 ∧ y = y1)),
      bresLoopGo (cx - x1) (cy - y1) sx' sy' dx dy (cx - x) (cy - y) err hB
        = (bresLoopGo x1 y1 sx sy dx dy x y err hA).map
            (fun p : Nat × Nat => ((cx - (p.1 : Int)).toNat, (cy - (p.2 : Int)).toNat)) := by
  intro x y err hA
  induction x, y, err, hA using bresLoopGo.induct x1 y1 sx sy dx dy with
  | case1 x y err hA hxy =>
      intro hB hrange
      have hx0 : 0 ≤ x := bresState_x_nonneg x1 y1 sx sy dx dy x y err hA hx1n hx0n
      have hy0 : 0 ≤ y := bresState_y_nonneg x1 y1 sx sy dx dy x y err hA hy1n hy0n
      rw [bresLoopGo_base x1 y1 sx sy dx dy x y err hA hxy]
      rw [bresLoopGo_base _ _ _ _ _ _ _ _ _ hB ⟨by rw [hxy.1], by rw [hxy.2]⟩]
      simp only [List.map_cons, List.map_nil]
      rw [Int.toNat_of_nonneg hx0, Int.toNat_of_nonneg hy0]
  | case2 x y err hA hxy ih =>
      intro hB hrange
      have hrange' : BresRange dx dy err := by
        rcases hrange with hr | hr
        · exact hr
        · exact absurd hr hxy
      have hx0 : 0 ≤ x := bresState_x_nonneg x1 y1 sx sy dx dy x y err hA hx1n hx0n
      have hy0 : 0 ≤ y := bresState_y_nonneg x1 y1 sx sy dx dy x y err hA hy1n hy0n
      have hxyB : ¬(cx - x = cx - x1 ∧ cy - y = cy - y1) := by
        intro ⟨ha, hb⟩
        exact hxy ⟨by omega, by omega⟩
      have hparts := hA
      obtain ⟨hsx, hsy, hdx, hdy, hrx0, hrxd, hry0, hryd, herr⟩ := hparts
      rw [bresLoopGo_step x1 y1 sx sy dx dy x y err hA hxy]
      rw [bresLoopGo_step _ _ _ _ _ _ _ _ _ hB hxyB]
      simp only [List.map_cons]
      have hbx : (bresStep dx dy sx' sy' (cx - x) (cy - y) err).1
          = cx - (bresStep dx dy sx sy x y err).1 := by
        simp only [bresStep]
        by_cases hTx : 2 * err ≥ dy
        · rw [if_pos hTx, if_pos hTx]
          rcases hsxr with hs | hs
          · rw [hs]; ring
          · exfalso
            have hmaj : dx + dy ≤ 0 := by omega
            obtain ⟨_, hu⟩ := hrange'.2 hmaj
            omega
        · rw [if_neg hTx, if_neg hTx]
      have hby : (bresStep dx dy sx' sy' (cx - x) (cy - y) err).2.1
          = cy - (bresStep dx dy sx sy x y err).2.1 := by
        simp only [bresStep]
        by_cases hTy : 2 * err ≤ dx
        · rw [if_pos hTy, if_pos hTy]
          rcases hsyr with hs | hs
          · rw [hs]; ring
          · exfalso
            have hmaj : 0 ≤ dx + dy := by omega
            obtain ⟨hl, _⟩ := hrange'.1 hmaj
            omega
        · rw [if_neg hTy, if_neg hTy]
      have hberr : (bresStep dx dy sx' sy' (cx - x) (cy - y) err).2.2
          = (bresStep dx dy sx sy x y err).2.2 := rfl
      congr 1
      · rw [Int.toNat_of_nonneg hx0, Int.toNat_of_nonneg hy0]
      · have hBstep := (bresStep_inv _ _ _ _ _ _ _ _ _ hB hxyB).1
        have hBstep' : BresState (cx - x1) (cy - y1) sx' sy' dx dy
            (cx - (bresStep dx dy sx sy x y err).1)
            (cy - (bresStep dx dy sx sy x y err).2.1)
            (bresStep dx dy sx sy x y err).2.2 := by
          rw [← hbx, ← hby, ← hberr]
          exact hBstep
        rw [bresLoopGo_congr_params (cx - x1) (cy - y1) sx' sy' dx dy
            (bresStep dx dy sx' sy' (cx - x) (cy - y) err).1
            (bresStep dx dy sx' sy' (cx - x) (cy - y) err).2.1
            (bresStep dx dy sx' sy' (cx - x) (cy - y) err).2.2
            (cx - x1) (cy - y1) sx' sy' dx dy
            (cx - (bresStep dx dy sx sy x y err).1)
            (cy - (bresStep dx dy sx sy x y err).2.1)
            (bresStep dx dy sx sy x y err).2.2
            rfl rfl rfl rfl rfl rfl hbx hby hberr hBstep hBstep']
        exact ih hBstep' (Or.inl (bresRange_step dx dy err hdx hdy hrange'))

theorem bresRange_top (x0 y0 x1 y1 : Nat) :
    BresRange ((((x1 : Int) - x0).natAbs : Int)) (-(((y1 : Int) - y0).natAbs : Int))
        ((((x1 : Int) - x0).natAbs : Int) + -(((y1 : Int) - y0).natAbs : Int))
      ∨ ((x0 : Int) = (x1 : Int) ∧ (y0 : Int) = (y1 : Int)) := by
  by_cases hdone : ((x0 : Int) = (x1 : Int) ∧ (y0 : Int) = (y1 : Int))
  · exact Or.inr hdone
  · refine Or.inl (bresRange_init _ _ (by omega) (by omega) ?_)
    intro ⟨ha, hb⟩
    exact hdone ⟨by omega, by omega⟩

/-- Claim C3 (amended): reversing the endpoints yields the pointwise
180-degree rotation of the forward point list about the segment midpoint,
mapping each forward point (px, py) to (x0+x1-px, y0+y1-py); in general the
two runs do not produce the same point set. -/
theorem bresenham_line_reverse (x0 y0 x1 y1 : Nat) :
    bresenham_line x1 y1 x0 y0
      = (bresenham_line x0 y0 x1 y1).map
          (fun p : Nat × Nat => (x0 + x1 - p.1, y0 + y1 - p.2)) := by
  have hsxr : (if (x1 : Int) < x0 then (1 : Int) else -1)
      = -(if (x0 : Int) < x1 then (1 : Int) else -1)
      ∨ ((((x1 : Int) - x0).natAbs : Int)) = 0 := by
    by_cases h : (x0 : Int) = (x1 : Int)
    · right; omega
    · left; split_ifs <;> omega
  have hsyr : (if (y1 : Int) < y0 then (1 : Int) else -1)
      = -(if (y0 : Int) < y1 then (1 : Int) else -1)
      ∨ (-(((y1 : Int) - y0).natAbs : Int)) = 0 := by
    by_cases h : (y0 : Int) = (y1 : Int)
    · right; omega
    · left; split_ifs <;> omega
  have hx1n : 0 ≤ (x1 : Int) := by omega
  have hy1n : 0 ≤ (y1 : Int) := by omega
  have hx0n : 0 ≤ (x1 : Int)
      - (if (x0 : Int) < x1 then (1 : Int) else -1) * ((((x1 : Int) - x0).natAbs : Int)) := by
    split_ifs <;> omega
  have hy0n : 0 ≤ (y1 : Int)
      + (if (y0 : Int) < y1 then (1 : Int) else -1) * (-(((y1 : Int) - y0).natAbs : Int)) := by
    split_ifs <;> omega
  have hB0 : BresState ((x0 : Int) + x1 - x1) ((y0 : Int) + y1 - y1)
      (if (x1 : Int) < x0 then 1 else -1) (if (y1 : Int) < y0 then 1 else -1)
      ((((x1 : Int) - x0).natAbs : Int)) (-(((y1 : Int) - y0).natAbs : Int))
      ((x0 : Int) + x1 - x0) ((y0 : Int) + y1 - y0)
      ((((x1 : Int) - x0).natAbs : Int) + -(((y1 : Int) - y0).natAbs : Int)) := by
    have hb := bresState_init x1 y1 x0 y0
    rw [show ((x0 : Int) + x1 - x1) = (x0 : Int) by ring,
        show ((y0 : Int) + y1 - y1) = (y0 : Int) by ring,
        show ((x0 : Int) + x1 - x0) = (x1 : Int) by ring,
        show ((y0 : Int) + y1 - y0) = (y1 : Int) by ring,
        show ((((x1 : Int) - x0).natAbs : Int)) = (((x0 : Int) - x1).natAbs : Int) by omega,
        show (-(((y1 : Int) - y0).natAbs : Int)) = -(((y0 : Int) - y1).natAbs : Int) by omega]
    exact hb
  have hrot := bresLoopGo_rot ((x0 : Int) + x1) ((y0 : Int) + y1) (x1 : Int) (y1 : Int)
      (if (x0 : Int) < x1 then 1 else -1) (if (y0 : Int) < y1 then 1 else -1)
      (if (x1 : Int) < x0 then 1 else -1) (if (y1 : Int) < y0 then 1 else -1)
      ((((x1 : Int) - x0).natAbs : Int)) (-(((y1 : Int) - y0).natAbs : Int))
      hsxr hsyr hx1n hx0n hy1n hy0n
      (x0 : Int) (y0 : Int)
      ((((x1 : Int) - x0).natAbs : Int) + -(((y1 : Int) - y0).natAbs : Int))
      (bresState_init x0 y0 x1 y1) hB0 (bresRange_top x0 y0 x1 y1)
  unfold bresenham_line
  rw [bresLoopGo_congr_params
      (x0 : Int) (y0 : Int)
      (if (x1 : Int) < x0 then 1 else -1) (if (y1 : Int) < y0 then 1 else -1)
      ((((x0 : Int) - x1).natAbs : Int)) (-(((y0 : Int) - y1).natAbs : Int))
      (x1 : Int) (y1 : Int)
      ((((x0 : Int) - x1).natAbs : Int) + -(((y0 : Int) - y1).natAbs : Int))
      ((x0 : Int) + x1 - x1) ((y0 : Int) + y1 - y1)
      (if (x1 : Int) < x0 then 1 else -1) (if (y1 : Int) < y0 then 1 else -1)
      ((((x1 : Int) - x0).natAbs : Int)) (-(((y1 : Int) - y0).natAbs : Int))
      ((x0 : Int) + x1 - x0) ((y0 : Int) + y1 - y0)
      ((((x1 : Int) - x0).natAbs : Int) + -(((y1 : Int) - y0).natAbs : Int))
      (by ring) (by ring) rfl rfl (by omega) (by omega) (by ring) (by ring) (by omega)
      (bresState_init x1 y1 x0 y0) hB0]
  rw [hrot]
  have hfun : (fun p : Nat × Nat =>
        ((((x0 : Int) + x1) - (p.1 : Int)).toNat, (((y0 : Int) + y1) - (p.2 : Int)).toNat))
      = (fun p : Nat × Nat => (x0 + x1 - p.1, y0 + y1 - p.2)) := by
    funext p
    simp only [Prod.mk.injEq]
    omega
  rw [hfun]

/-- Counterexample to claim C3 as stated: the lines between (0,0) and (2,1)
traced in the two directions do not visit the same point set. -/
theorem bresenham_line_not_symmetric :
    bresenham_line 0 0 2 1 = [(0, 0), (1, 1), (2, 1)] ∧
    bresenham_line 2 1 0 0 = [(2, 1), (1, 0), (0, 0)] ∧
    (1, 1) ∈ bresenham_line 0 0 2 1 ∧
    ¬((1, 1) ∈ bresenham_line 2 1 0 0) := by
  refine ⟨?_, ?_, ?_, ?_⟩ <;> rw [bresenham_line_fuel] <;> decide

end Kakukuma
